import Mathlib

/-!
# A verification development for the simple shell (`shell.c`, `shell.h`)

Modelling conventions.

* A C string is the list of its characters before the terminating NUL.
* Allocation succeeds (the code exits or returns on a failed `malloc` or
  `strdup`), and the lengths of lines fit in an `int`.
* The fixed-size arrays and blocks of the code keep their sizes.  An access
  outside one of them, or through a NULL pointer, is undefined behaviour, and
  the model answers `none`.
* A block returned by `malloc` is not initialised: what `replace_variables`
  finds in its fresh `result` block is a parameter (`fresh`).
* What a child process does is outside the program: it is given by an
  `Outcome` for each launch.
-/

namespace Shell

/-! ## Constants of `shell.h` -/

/-- The size of the `command` buffers: `#define MAX_INPUT_SIZE 1024`. -/
def MAX_INPUT_SIZE : Nat := 1024

/-- The size of the `commands` arrays: `#define MAX_COMMANDS 100`. -/
def MAX_COMMANDS : Nat := 100

/-- The size of the alias table: `#define MAX_ALIASES 10`. -/
def MAX_ALIASES : Nat := 10

/-! ## `strip_comments` (shell.c, lines 75-96) -/

/-- The copy loop of `strip_comments`:
`for (i = 0; command[i] != '\0' && command[i] != '#'; i++) result[i] = command[i];`
followed by `result[i] = '\0'`.  The list ends where the NUL stands. -/
def strip_comments : List Char → List Char
  | [] => []
  | c :: rest => if c = '#' then [] else c :: strip_comments rest

/-! ## `replace_variables` (shell.c, lines 535-607) -/

/-- The call `snprintf(temp, size, ...)` stores at most `size - 1` characters of
the formatted text (and the NUL). -/
def snprintf (size : Nat) (text : List Char) : List Char := text.take (size - 1)

/-- The scan loop of `replace_variables`, `for (i = 0; command[i] != '\0'; i++)`.
The first list is `result`, the second is what remains of `command` from
index `i`; `len` is `strlen(command) + 1`.  The three calls are
`snprintf(temp, len + 10, "%s%d", result, getpid())`,
`snprintf(temp, len + 10, "%s%d", result, 0)` and
`snprintf(temp, len + 1, "%s%c", result, command[i])`. -/
def replace_variables_loop (pid len : Nat) : List Char → List Char → List Char
  | result, [] => result
  | result, c :: rest =>
    if c = '$' then
      match rest with
      | [] => replace_variables_loop pid len (snprintf (len + 1) (result ++ [c])) []
      | d :: rest' =>
        if d = '$' then
          replace_variables_loop pid len
            (snprintf (len + 10) (result ++ Nat.toDigits 10 pid)) rest'
        else if d = '?' then
          replace_variables_loop pid len
            (snprintf (len + 10) (result ++ Nat.toDigits 10 0)) rest'
        else
          replace_variables_loop pid len (snprintf (len + 1) (result ++ [c])) (d :: rest')
    else
      replace_variables_loop pid len (snprintf (len + 1) (result ++ [c])) rest

/-- The function `replace_variables`: `result = malloc(len)` is not initialised,
`fresh` is the C string found in that block; `pid` is what `getpid()` returns. -/
def replace_variables (pid : Nat) (fresh : List Char) (command : List Char) : List Char :=
  replace_variables_loop pid (command.length + 1) fresh command

/-! ## `strtok` and the token loops -/

/-- Membership of a character in the delimiter string passed to `strtok`. -/
def is_delim (delim : List Char) (c : Char) : Bool := delim.contains c

/-- One call of the library function `strtok` on the text `s` that remains:
leading delimiters are skipped; with nothing left the answer is NULL (`none`);
otherwise the token runs up to the next delimiter, which is overwritten by NUL,
and the scan resumes after it. -/
def strtok (delim : List Char) (s : List Char) : Option (List Char × List Char) :=
  match s.dropWhile (is_delim delim) with
  | [] => none
  | c :: cs =>
    some ((c :: cs).takeWhile (fun x => !is_delim delim x),
          ((c :: cs).dropWhile (fun x => !is_delim delim x)).drop 1)

/-- The loop `while (token != NULL && i < n) { a[i++] = token; token = strtok(NULL, delim); }`
where the first argument counts the iterations still allowed; the result lists
`a[0]`, `a[1]`, ... -/
def strtok_loop (delim : List Char) : Nat → Option (List Char × List Char) → List (List Char)
  | _, none => []
  | 0, some _ => []
  | n + 1, some (token, rest) => token :: strtok_loop delim n (strtok delim rest)

/-- The tokens the loop of `tokenize_input` (lines 391-404) stores at `tokens[0]`,
`tokens[1]`, ... before the closing NULL.  The loop `while (token != NULL)` has
no bound; `input.length` iterations always suffice (`tokenize_input_fuel`). -/
def tokenize_input (input : List Char) : List (List Char) :=
  strtok_loop [' '] input.length (strtok [' '] input)

/-- The number of pointers in the block of `tokenize_input`:
`char **tokens = malloc(sizeof(char *) * 3)`. -/
def TOKENS_SLOTS : Nat := 3

/-- The function `tokenize_input` (lines 379-409) with its block: `n` tokens and the
closing `tokens[n] = NULL` take `n + 1` slots.  When they do not fit the
`TOKENS_SLOTS` pointers of the block, the stores from `tokens[3]` on land
outside it, on the heap data next to it: `none`. -/
def tokenize_input_block (input : List Char) : Option (List (List Char)) :=
  if (tokenize_input input).length + 1 ≤ TOKENS_SLOTS then some (tokenize_input input)
  else none

/-! ## `parse_input` (shell.c, lines 195-210) -/

/-- The array `char *args[2]`. -/
structure Args where
  arg0 : Option (List Char)
  arg1 : Option (List Char)
deriving DecidableEq, Repr

/-- The function `parse_input`: `tokens = tokenize_input(input)`; with no token it
returns at once; otherwise `strcpy(command, tokens[0])`, `args[0] = command` and
`args[1] = tokens[1]` (NULL when there is no second token).  The result is the
`command` buffer and the `args` array after the call.  The buffer of the caller
is taken to hold the first token: every caller passes `char command[MAX_INPUT_SIZE]`
and a text that fits it. -/
def parse_input (input command : List Char) (args : Args) : Option (List Char × Args) :=
  match tokenize_input_block input with
  | none => none
  | some [] => some (command, args)
  | some (t0 :: ts) => some (t0, ⟨some t0, ts.head?⟩)

/-- An `args` array the caller has not written yet. -/
def uninit : Args := ⟨none, none⟩

/-! ## The executors (shell.c, lines 7-68 and 102-187) -/

/-- What `fork` and the wait for the child report for one launch. -/
inductive Outcome where
  | fork_failed
  | exited (status : Nat)
  | signalled
deriving DecidableEq, Repr

/-- The function `execute_command` (lines 7-36): `true` when the call comes back to
its caller (the parent after `wait(NULL)`), `false` when `fork` fails and the
shell itself calls `_exit(EXIT_FAILURE)`. -/
def execute_command (o : Outcome) : Bool :=
  match o with
  | .fork_failed => false
  | _ => true

/-- The function `execute_command_with_logical` (lines 147-187), its return value:
`-1` when `fork` fails, when `WEXITSTATUS(status) != 0` or when the child did
not exit normally, `0` otherwise. -/
def execute_command_with_logical (o : Outcome) : Int :=
  match o with
  | .fork_failed => -1
  | .exited status => if status ≠ 0 then -1 else 0
  | .signalled => -1

/-- The splitting loop shared by `execute_commands` (lines 48-56) and
`execute_logical_commands` (lines 110-121): at most `MAX_COMMANDS` tokens are
stored in `char *commands[MAX_COMMANDS]`, then `commands[i] = NULL` is written.
With `i = MAX_COMMANDS` that slot lies outside the array, and the run loop
would read it back: `none`. -/
def split_commands (delim : List Char) (input : List Char) : Option (List (List Char)) :=
  let commands := strtok_loop delim MAX_COMMANDS (strtok delim input)
  if commands.length < MAX_COMMANDS then some commands else none

/-- The command that the run loop of `execute_commands` hands to `execute_command` for
a fragment: `strcpy(command, commands[i])`, which needs the fragment to fit
`char command[MAX_INPUT_SIZE]`, then `parse_input(command, command, args)`. -/
def plain_command (fragment : List Char) : Option (List Char) :=
  if fragment.length < MAX_INPUT_SIZE then
    (parse_input fragment fragment uninit).map Prod.fst
  else none

/-- The run loop of `execute_commands` (lines 58-67) from index `i` on: the list of
the commands handed to `execute_command`, in order. -/
def run_commands (outcome : Nat → Outcome) : Nat → List (List Char) → Option (List (List Char))
  | _, [] => some []
  | i, fragment :: rest =>
    match plain_command fragment with
    | none => none
    | some command =>
      if execute_command (outcome i) then
        (run_commands outcome (i + 1) rest).map (command :: ·)
      else some [command]

/-- The function `execute_commands` (lines 42-68); `outcome i` is what happens to
the launch of `commands[i]`. -/
def execute_commands (outcome : Nat → Outcome) (input : List Char) :
    Option (List (List Char)) :=
  match split_commands [';'] input with
  | none => none
  | some commands => run_commands outcome 0 commands

/-- The command that the run loop of `execute_logical_commands` hands to
`execute_command_with_logical` for `commands[i]`:
`replaced_command = replace_variables(commands[i])`, `strcpy(command, replaced_command)`,
which needs the text to fit `char command[MAX_INPUT_SIZE]`, then
`parse_input(command, command, args)`. -/
def logical_command (pid : Nat) (fresh : Nat → List Char) (i : Nat) (fragment : List Char) :
    Option (List Char) :=
  if (replace_variables pid (fresh (i + 1)) fragment).length < MAX_INPUT_SIZE then
    (parse_input (replace_variables pid (fresh (i + 1)) fragment)
      (replace_variables pid (fresh (i + 1)) fragment) uninit).map Prod.fst
  else none

/-- The run loop of `execute_logical_commands` (lines 123-136) from index `i` on:
the list of the commands handed to `execute_command_with_logical`, in order;
the loop breaks when that call returns `-1`. -/
def run_logical (pid : Nat) (fresh : Nat → List Char) (outcome : Nat → Outcome) :
    Nat → List (List Char) → Option (List (List Char))
  | _, [] => some []
  | i, fragment :: rest =>
    match logical_command pid fresh i fragment with
    | none => none
    | some command =>
      if execute_command_with_logical (outcome i) = -1 then some [command]
      else (run_logical pid fresh outcome (i + 1) rest).map (command :: ·)

/-- The fragments `execute_logical_commands` stores in `commands` (lines 105-121):
`strtok` with the delimiters `"&|"` over `strip_comments(replace_variables(input))`. -/
def logical_fragments (pid : Nat) (fresh0 : List Char) (input : List Char) :
    Option (List (List Char)) :=
  split_commands ['&', '|'] (strip_comments (replace_variables pid fresh0 input))

/-- The function `execute_logical_commands` (lines 102-140).  `fresh 0` is the content
of the block of the first `replace_variables` call, `fresh (i + 1)` that of the
call for `commands[i]`; `outcome i` is what happens to the launch of
`commands[i]`. -/
def execute_logical_commands (pid : Nat) (fresh : Nat → List Char) (outcome : Nat → Outcome)
    (input : List Char) : Option (List (List Char)) :=
  match logical_fragments pid (fresh 0) input with
  | none => none
  | some commands => run_logical pid fresh outcome 0 commands

/-! ## The alias table (shell.c, lines 414-472 and 523-524) -/

/-- The type `struct Alias { char *name; char *value; }`; `none` is NULL. -/
structure Alias where
  name : Option (List Char)
  value : Option (List Char)
deriving DecidableEq, Repr

/-- The global `struct Alias aliases[MAX_ALIASES]` at program start: all NULL. -/
def aliases_init : List Alias := List.replicate MAX_ALIASES ⟨none, none⟩

/-- The text one `printf("%s='%s'\n", ...)` of `print_aliases` writes for a slot, if any. -/
def alias_line (a : Alias) : Option (List Char) :=
  match a.name, a.value with
  | some n, some v => some (n ++ "='".toList ++ v ++ "'\n".toList)
  | _, _ => none

/-- The function `print_aliases` (lines 414-423): the lines written, in slot order. -/
def print_aliases (aliases : List Alias) : List (List Char) :=
  aliases.filterMap alias_line

/-- The names of the slots for which `print_aliases` writes a line, in slot order. -/
def printed_names (aliases : List Alias) : List (List Char) :=
  aliases.filterMap (fun a => match a.name, a.value with
    | some n, some _ => some n
    | _, _ => none)

/-- The number of populated slots (`name != NULL`). -/
def populated (aliases : List Alias) : Nat := aliases.countP (fun a => a.name.isSome)

/-- The function `set_alias` (lines 431-472): the slots are visited from index 0; the
first slot with `name == NULL` takes the new pair, a slot whose name compares
equal gets the new value; past the last slot the answer is `-1`.  The result
is the return value and the table after the call. -/
def set_alias (name value : List Char) : List Alias → Int × List Alias
  | [] => (-1, [])
  | a :: rest =>
    match a.name with
    | none => (0, ⟨some name, some value⟩ :: rest)
    | some n =>
      if n = name then (0, ⟨a.name, some value⟩ :: rest)
      else ((set_alias name value rest).1, a :: (set_alias name value rest).2)

/-- The tables the program can hold: the initial one and those `set_alias` makes. -/
inductive Reachable : List Alias → Prop where
  | init : Reachable aliases_init
  | step (name value : List Char) (t : List Alias) :
      Reachable t → Reachable (set_alias name value t).2

/-- A table given by its populated entries, followed by `k` empty slots. -/
def table_of (ps : List (List Char × List Char)) (k : Nat) : List Alias :=
  ps.map (fun p => ⟨some p.1, some p.2⟩) ++ List.replicate k ⟨none, none⟩

/-- The shape of the reachable tables: distinct names first, empty slots after. -/
def WellFormed (t : List Alias) : Prop :=
  ∃ ps : List (List Char × List Char), ∃ k : Nat,
    t = table_of ps k ∧ ps.length + k = MAX_ALIASES ∧ (ps.map Prod.fst).Nodup

/-! ## Lines used as concrete inputs -/

/-- The line `a&a&...&a` with `n` fragments. -/
def amp_line (n : Nat) : List Char := List.intercalate ['&'] (List.replicate n ['a'])

/-- The line `a;a;...;a` with `n` fragments. -/
def semi_line (n : Nat) : List Char := List.intercalate [';'] (List.replicate n ['a'])

/-- A line of 1023 characters: 1021 times `a`, then `$$`. -/
def long_line : List Char := List.replicate 1021 'a' ++ ['$', '$']

/-- A full alias table with the names `0` to `9`. -/
def full_table : List Alias :=
  (List.range MAX_ALIASES).map (fun i => ⟨some (Nat.toDigits 10 i), some ['v']⟩)

/-! ## `find_command_path` (shell.c, lines 225-269) -/

/-- The loop of `find_command_path` (lines 244-265): for each token of `PATH`,
`sprintf(full_path, "%s/%s", token, command)` and `stat(full_path, &st) == 0`. -/
def find_command_path_loop (command : List Char) (file_exists : List Char → Bool) :
    Nat → Option (List Char × List Char) → Option (List Char)
  | _, none => none
  | 0, some _ => none
  | n + 1, some (token, rest) =>
    if file_exists (token ++ '/' :: command) then some (token ++ '/' :: command)
    else find_command_path_loop command file_exists n (strtok [':'] rest)

/-- The function `find_command_path` (lines 225-269): `path` is what `getenv("PATH")`
returns (`none` for NULL), `file_exists` tells for which paths `stat` returns 0.
The loop `while (token != NULL)` has no bound; `path.length` iterations always
suffice (`find_command_path_fuel`). -/
def find_command_path (path : Option (List Char)) (command : List Char)
    (file_exists : List Char → Bool) : Option (List Char) :=
  match path with
  | none => none
  | some p => find_command_path_loop command file_exists p.length (strtok [':'] p)

/-- The value of `PATH` that lists the given directories, separated by colons. -/
def join_path : List (List Char) → List Char
  | [] => []
  | [d] => d
  | d :: e :: ds => d ++ ':' :: join_path (e :: ds)

/-- The first existing candidate among the given directories, spelt from the spec:
`<dir>/<command>` for the leftmost directory where it exists. -/
def first_existing (dirs : List (List Char)) (command : List Char)
    (file_exists : List Char → Bool) : Option (List Char) :=
  (dirs.find? (fun d => file_exists (d ++ '/' :: command))).map (fun d => d ++ '/' :: command)

/-! ## The runs of a line -/

/-- The maximal runs of a line, spelt from the spec: `Runs delim line ts` says that
`ts` lists, in order, the maximal runs of characters of `line` that are not
delimiters.  The line is a gap of delimiters, then, for each run, the run (not
empty, free of delimiters) followed by the end of the line or by a delimiter. -/
inductive Runs (delim : List Char) : List Char → List (List Char) → Prop where
  | done (gap : List Char) : (∀ c ∈ gap, is_delim delim c = true) → Runs delim gap []
  | run (gap t after : List Char) (ts : List (List Char)) :
      (∀ c ∈ gap, is_delim delim c = true) → t ≠ [] → (∀ c ∈ t, is_delim delim c = false) →
      (after = [] ∨ ∃ d rest, after = d :: rest ∧ is_delim delim d = true) →
      Runs delim after ts → Runs delim (gap ++ t ++ after) (t :: ts)

/-! ## `shell_alias` (shell.c, lines 478-521) -/

/-- The function `shell_alias` (lines 478-521): the lines written and the table after
the call.  `token = strtok(input, "=")`; NULL: `print_aliases()`; otherwise
`name = strdup(token)` and `token = strtok(NULL, "=")`; NULL: nothing is done;
otherwise `set_alias(name, value)` with `value = strdup(token)`. -/
def shell_alias (input : List Char) (aliases : List Alias) : List (List Char) × List Alias :=
  match strtok ['='] input with
  | none => (print_aliases aliases, aliases)
  | some (name, rest) =>
    match strtok ['='] rest with
    | none => ([], aliases)
    | some (value, _) => ([], (set_alias name value aliases).2)

/-! ## Texts with nothing to expand -/

/-- A text in which no `$` is followed by `$` or `?`: `replace_variables` finds nothing
to expand in it. -/
def PatternFree (s : List Char) : Prop :=
  ∀ (pre post : List Char) (d : Char), s = pre ++ '$' :: d :: post → d ≠ '$' ∧ d ≠ '?'

/-! ## The loop of `main` (shell.c, lines 643-678, and main.c) -/

/-- The call one pass of the loop of `main` makes (shell.c, lines 664-675). -/
inductive Action where
  | shell_exit
  | shell_env
  | set_env_variable (name value : Option (List Char))
  | unset_env_variable (name : Option (List Char))
  | change_directory (path : Option (List Char))
  | execute_command (command : List Char)
deriving DecidableEq, Repr

/-- The read of `args[i]` in `char *args[2]`: the array has the slots 0 and 1. -/
def args_read (args : Args) : Nat → Option (Option (List Char))
  | 0 => some args.arg0
  | 1 => some args.arg1
  | _ => none

/-- The chain of `strcmp` tests of `main` (shell.c, lines 664-675): `exit`, `env`,
`setenv` with `args[1]` and `args[2]`, `unsetenv` and `cd` with `args[1]`, and
`execute_command(command)` for every other command. -/
def dispatch (command : List Char) (args : Args) : Option Action :=
  if command = "exit".toList then some Action.shell_exit
  else if command = "env".toList then some Action.shell_env
  else if command = "setenv".toList then
    match args_read args 1, args_read args 2 with
    | some name, some value => some (Action.set_env_variable name value)
    | _, _ => none
  else if command = "unsetenv".toList then
    (args_read args 1).map Action.unset_env_variable
  else if command = "cd".toList then
    (args_read args 1).map Action.change_directory
  else some (Action.execute_command command)

/-- What `_getline` leaves its caller with: the process has called
`_exit(EXIT_FAILURE)`, or the call has returned a line and a count. -/
inductive Getline where
  | exit_failure
  | returned (line : List Char) (bytes_read : Int)
deriving DecidableEq, Repr

/-- The function `_getline` (shell.c, lines 353-372): `buffer = NULL`, `size = 0`, and
`bytes_read` is what `read(0, buffer, size)` answers.  With `-1` the function
calls `perror` and `_exit(EXIT_FAILURE)`; otherwise `buffer[bytes_read] = '\0'`
stores through the NULL pointer, outside every object: `none`.  No path comes
to `*lineptr = buffer` and the `return`. -/
def _getline (bytes_read : Int) : Option Getline :=
  if bytes_read = -1 then some Getline.exit_failure else none

/-- What one pass of the loop of `main` comes to: the process has ended in `_getline`,
or the pass has made a call and left `command` and `args` with new content. -/
inductive Pass where
  | exit_failure
  | call (action : Action) (command : List Char) (args : Args)
deriving DecidableEq, Repr

/-- One pass of the loop of `main` in shell.c (lines 652-675): `_getline(&input, &input_size)`;
when it returns 0, `shell_exit()`; otherwise `input[strcspn(input, "\n")] = '\0'`,
`parse_input(input, command, args)`, then the chain of tests.  `bytes_read` is
the answer of `read` inside `_getline`; `command` and `args` are those of
`main`, left as they are from one pass to the next. -/
def main_step (bytes_read : Int) (command : List Char) (args : Args) : Option Pass :=
  match _getline bytes_read with
  | none => none
  | some Getline.exit_failure => some Pass.exit_failure
  | some (Getline.returned input n) =>
    if n = 0 then some (Pass.call Action.shell_exit command args)
    else
      match parse_input (input.takeWhile (fun c => c ≠ '\n')) command args with
      | none => none
      | some (command', args') =>
        match dispatch command' args' with
        | none => none
        | some action => some (Pass.call action command' args')

/-- One pass of the loop of `main` in main.c (lines 15-26) in which
`read(0, input, sizeof(input))` has put the text `input` in the buffer `input`
of `main`: `input[strcspn(input, "\n")] = '\0'`, `parse_input(input, command, args)`,
then `execute_command(command)`.  The result is the call made and the new
content of `command` and `args`. -/
def main_c_step (input command : List Char) (args : Args) :
    Option (Action × List Char × Args) :=
  match parse_input (input.takeWhile (fun c => c ≠ '\n')) command args with
  | none => none
  | some (command', args') => some (Action.execute_command command', command', args')

/-! ## Lemmas on the string functions -/

theorem replace_variables_loop_cons_plain (pid len : Nat) (c : Char) (result rest : List Char)
    (hc : c ≠ '$') :
    replace_variables_loop pid len result (c :: rest) =
      replace_variables_loop pid len (snprintf (len + 1) (result ++ [c])) rest := by
  cases rest <;> simp [replace_variables_loop, hc]

theorem replace_variables_loop_plain (pid len : Nat) (pre : List Char) :
    ∀ result rest : List Char, '$' ∉ pre → result.length + pre.length ≤ len →
      replace_variables_loop pid len result (pre ++ rest) =
        replace_variables_loop pid len (result ++ pre) rest := by
  induction pre with
  | nil => intro result rest _ _; simp
  | cons c pre ih =>
    intro result rest hmem hlen
    have hc : c ≠ '$' := fun e => hmem (by simp [e])
    have hpre : '$' ∉ pre := fun e => hmem (by simp [e])
    simp only [List.length_cons] at hlen
    have htake : snprintf (len + 1) (result ++ [c]) = result ++ [c] := by
      unfold snprintf
      exact List.take_of_length_le (by simp; omega)
    rw [List.cons_append, replace_variables_loop_cons_plain pid len c result _ hc, htake,
      ih (result ++ [c]) rest hpre (by simp; omega)]
    simp

theorem replace_variables_plain (pid : Nat) (command : List Char) (h : '$' ∉ command) :
    replace_variables pid [] command = command := by
  have := replace_variables_loop_plain pid (command.length + 1) command [] [] h (by simp)
  simpa [replace_variables, replace_variables_loop] using this

theorem strip_comments_of_not_mem (line : List Char) (h : '#' ∉ line) :
    strip_comments line = line := by
  induction line with
  | nil => rfl
  | cons c rest ih =>
    have hc : c ≠ '#' := fun e => h (by simp [e])
    have hr : '#' ∉ rest := fun e => h (by simp [e])
    simp [strip_comments, hc, ih hr]

theorem strtok_skip (delim : List Char) (d : Char) (z : List Char)
    (hd : is_delim delim d = true) : strtok delim (d :: z) = strtok delim z := by
  simp only [strtok, List.dropWhile_cons, hd, ↓reduceIte]

theorem takeWhile_append_stop (p : Char → Bool) (x : List Char) (d : Char) (z : List Char)
    (hx : ∀ c ∈ x, p c = true) (hd : p d = false) :
    (x ++ d :: z).takeWhile p = x ∧ (x ++ d :: z).dropWhile p = d :: z := by
  induction x with
  | nil => simp [List.takeWhile_cons, List.dropWhile_cons, hd]
  | cons c x ih =>
    have hc := hx c (by simp)
    have := ih (fun b hb => hx b (by simp [hb]))
    simp [List.takeWhile_cons, List.dropWhile_cons, hc, this]

theorem strtok_token (delim : List Char) (x : List Char) (d : Char) (z : List Char)
    (hne : x ≠ []) (hx : ∀ c ∈ x, is_delim delim c = false) (hd : is_delim delim d = true) :
    strtok delim (x ++ d :: z) = some (x, z) := by
  obtain ⟨c, cs, rfl⟩ := List.exists_cons_of_ne_nil hne
  have hc := hx c (by simp)
  have h := takeWhile_append_stop (fun a => !is_delim delim a) (c :: cs) d z
    (fun b hb => by simp [hx b hb]) (by simp [hd])
  simp only [List.cons_append] at h
  have h0 : (c :: (cs ++ d :: z)).dropWhile (is_delim delim) = c :: (cs ++ d :: z) := by
    rw [List.dropWhile_cons, hc]; rfl
  unfold strtok
  rw [List.cons_append, h0]
  simp only
  rw [h.1, h.2]
  rfl

theorem strtok_last (delim : List Char) (x : List Char)
    (hne : x ≠ []) (hx : ∀ c ∈ x, is_delim delim c = false) :
    strtok delim x = some (x, []) := by
  obtain ⟨c, cs, rfl⟩ := List.exists_cons_of_ne_nil hne
  have hc := hx c (by simp)
  have h1 : (c :: cs).takeWhile (fun a => !is_delim delim a) = c :: cs := by
    rw [List.takeWhile_eq_self_iff]
    intro b hb
    simp [hx b hb]
  have h2 : (c :: cs).dropWhile (fun a => !is_delim delim a) = [] := by
    rw [List.dropWhile_eq_nil_iff]
    intro b hb
    simp [hx b hb]
  have h0 : (c :: cs).dropWhile (is_delim delim) = c :: cs := by
    rw [List.dropWhile_cons, hc]; rfl
  unfold strtok
  rw [h0]
  simp only
  rw [h1, h2]
  rfl

theorem strtok_rest_length (delim : List Char) (s token rest : List Char)
    (h : strtok delim s = some (token, rest)) : rest.length < s.length := by
  unfold strtok at h
  have hsuf : (s.dropWhile (is_delim delim)).length ≤ s.length :=
    (List.dropWhile_sublist _).length_le
  cases hs : s.dropWhile (is_delim delim) with
  | nil => rw [hs] at h; simp at h
  | cons c cs =>
    rw [hs] at h hsuf
    simp only [Option.some.injEq, Prod.mk.injEq] at h
    rw [← h.2]
    have h3 : ((c :: cs).dropWhile (fun x => !is_delim delim x)).length ≤ (c :: cs).length :=
      (List.dropWhile_sublist _).length_le
    have hpos : 0 < s.length := by simp at hsuf; omega
    rw [List.length_drop]
    omega

theorem strtok_loop_enough (delim : List Char) :
    ∀ (n : Nat) (s : List Char), s.length ≤ n → ∀ m : Nat, n ≤ m →
      strtok_loop delim m (strtok delim s) = strtok_loop delim n (strtok delim s) := by
  intro n
  induction n with
  | zero =>
    intro s hs m _
    have : s = [] := List.length_eq_zero.mp (by omega)
    subst this
    simp [strtok, strtok_loop]
  | succ n ih =>
    intro s hs m hm
    cases h : strtok delim s with
    | none => simp [strtok_loop]
    | some p =>
      obtain ⟨token, rest⟩ := p
      have hr := strtok_rest_length delim s token rest h
      obtain ⟨m', rfl⟩ : ∃ m', m = m' + 1 := ⟨m - 1, by omega⟩
      simp only [strtok_loop]
      rw [ih rest (by omega) m' (by omega)]

/-- The loop of `tokenize_input` has come to its end within `input.length` iterations:
more iterations give the same tokens. -/
theorem tokenize_input_fuel (input : List Char) (m : Nat) (h : input.length ≤ m) :
    strtok_loop [' '] m (strtok [' '] input) = tokenize_input input :=
  strtok_loop_enough [' '] input.length input (Nat.le_refl _) m h

/-- When the splitting loop stops with fewer than `n` tokens stored, it has stored
every token: a larger bound gives the same list. -/
theorem strtok_loop_stored (delim : List Char) :
    ∀ (n : Nat) (t : Option (List Char × List Char)), (strtok_loop delim n t).length < n →
      ∀ m : Nat, n ≤ m → strtok_loop delim m t = strtok_loop delim n t := by
  intro n
  induction n with
  | zero => intro t h; simp at h
  | succ n ih =>
    intro t h m hm
    cases t with
    | none => simp [strtok_loop]
    | some p =>
      obtain ⟨token, rest⟩ := p
      obtain ⟨m', rfl⟩ : ∃ m', m = m' + 1 := ⟨m - 1, by omega⟩
      simp only [strtok_loop, List.length_cons] at h ⊢
      rw [ih (strtok delim rest) (by omega) m' (by omega)]


/-! ## Lemmas on the run loops -/

theorem execute_command_with_logical_cases (o : Outcome) :
    execute_command_with_logical o = -1 ∨ execute_command_with_logical o = 0 := by
  cases o with
  | fork_failed => exact Or.inl rfl
  | exited status =>
    by_cases h : status = 0
    · right; simp [execute_command_with_logical, h]
    · left; simp [execute_command_with_logical, h]
  | signalled => exact Or.inl rfl

theorem parse_input_defined (input command : List Char) (args : Args)
    (h : (tokenize_input input).length < TOKENS_SLOTS) :
    ∃ r, parse_input input command args = some r := by
  unfold parse_input tokenize_input_block
  rw [if_pos (by omega)]
  cases tokenize_input input with
  | nil => exact ⟨_, rfl⟩
  | cons t0 ts => exact ⟨_, rfl⟩

theorem logical_command_defined (pid : Nat) (fresh : Nat → List Char) (i : Nat)
    (fragment : List Char)
    (hlen : (replace_variables pid (fresh (i + 1)) fragment).length < MAX_INPUT_SIZE)
    (htok : (tokenize_input (replace_variables pid (fresh (i + 1)) fragment)).length
      < TOKENS_SLOTS) :
    ∃ c, logical_command pid fresh i fragment = some c := by
  obtain ⟨r, hr⟩ := parse_input_defined (replace_variables pid (fresh (i + 1)) fragment)
    (replace_variables pid (fresh (i + 1)) fragment) uninit htok
  exact ⟨r.1, by simp [logical_command, hlen, hr]⟩

theorem plain_command_defined (fragment : List Char) (hlen : fragment.length < MAX_INPUT_SIZE)
    (htok : (tokenize_input fragment).length < TOKENS_SLOTS) :
    ∃ c, plain_command fragment = some c := by
  obtain ⟨r, hr⟩ := parse_input_defined fragment fragment uninit htok
  exact ⟨r.1, by simp [plain_command, hlen, hr]⟩

/-- The call `execute_command_with_logical` reports failure exactly when the child does
not exit with status 0. -/
theorem execute_command_with_logical_fails_iff (o : Outcome) :
    execute_command_with_logical o = -1 ↔ o ≠ Outcome.exited 0 := by
  cases o with
  | fork_failed => simp [execute_command_with_logical]
  | exited status =>
    by_cases h : status = 0
    · simp [execute_command_with_logical, h]
    · simp [execute_command_with_logical, h]
  | signalled => simp [execute_command_with_logical]

theorem run_logical_spec (pid : Nat) (fresh : Nat → List Char) (outcome : Nat → Outcome)
    (commands : List (List Char)) :
    ∀ i0 : Nat,
    (∀ (j : Nat) (f : List Char), commands[j]? = some f →
        (∀ i : Nat, i < j → outcome (i0 + i) = Outcome.exited 0) →
        ∃ c, logical_command pid fresh (i0 + j) f = some c) →
    ∃ runs, run_logical pid fresh outcome i0 commands = some runs ∧
      runs.length ≤ commands.length ∧
      (∀ j : Nat, j < runs.length → ∃ f, commands[j]? = some f ∧
          runs[j]? = logical_command pid fresh (i0 + j) f) ∧
      (∀ j : Nat, j + 1 < runs.length → outcome (i0 + j) = Outcome.exited 0) ∧
      (runs.length < commands.length →
          ∃ n, runs.length = n + 1 ∧ outcome (i0 + n) ≠ Outcome.exited 0) := by
  induction commands with
  | nil =>
    intro i0 _
    exact ⟨[], rfl, by simp, by simp, by simp, by simp⟩
  | cons fragment rest ih =>
    intro i0 hdef
    obtain ⟨c, hc⟩ := hdef 0 fragment (by simp) (by intro i hi; omega)
    rw [Nat.add_zero] at hc
    by_cases hfail : execute_command_with_logical (outcome i0) = -1
    · refine ⟨[c], ?_, by simp, ?_, by simp, ?_⟩
      · simp only [run_logical, hc, hfail, ↓reduceIte]
      · intro j hj
        have : j = 0 := by simpa using hj
        subst this
        exact ⟨fragment, by simp, by simp [hc]⟩
      · intro _
        exact ⟨0, rfl, (execute_command_with_logical_fails_iff _).mp hfail⟩
    · have hok : outcome i0 = Outcome.exited 0 := by
        by_contra hne
        exact hfail ((execute_command_with_logical_fails_iff _).mpr hne)
      obtain ⟨runs, hrun, hlen, hord, hsucc, hstop⟩ := ih (i0 + 1) (by
        intro j f hj hbefore
        have := hdef (j + 1) f (by simpa using hj) (by
          intro i hi
          cases i with
          | zero => exact hok
          | succ i =>
            have := hbefore i (by omega)
            rwa [show i0 + 1 + i = i0 + (i + 1) by omega] at this)
        rwa [show i0 + (j + 1) = i0 + 1 + j by omega] at this)
      refine ⟨c :: runs, ?_, by simpa using hlen, ?_, ?_, ?_⟩
      · simp only [run_logical, hc, hfail, ↓reduceIte, hrun, Option.map_some']
      · intro j hj
        cases j with
        | zero => exact ⟨fragment, by simp, by simp [hc]⟩
        | succ j =>
          obtain ⟨f, hf, ht⟩ := hord j (by simpa using hj)
          refine ⟨f, by simpa using hf, ?_⟩
          rw [List.getElem?_cons_succ, ht, show i0 + 1 + j = i0 + (j + 1) by omega]
      · intro j hj
        cases j with
        | zero => exact hok
        | succ j =>
          have := hsucc j (by simpa using hj)
          rwa [show i0 + 1 + j = i0 + (j + 1) by omega] at this
      · intro hlt
        obtain ⟨n, hn, hf⟩ := hstop (by simpa using hlt)
        refine ⟨n + 1, by simp [hn], ?_⟩
        rwa [show i0 + 1 + n = i0 + (n + 1) by omega] at hf

theorem strip_comments_append_hash (pre post : List Char) (h : '#' ∉ pre) :
    strip_comments (pre ++ '#' :: post) = pre := by
  induction pre with
  | nil => simp [strip_comments]
  | cons c rest ih =>
    have hc : c ≠ '#' := fun e => h (by simp [e])
    have hr : '#' ∉ rest := fun e => h (by simp [e])
    simp [strip_comments, hc, ih hr]

theorem run_commands_all (outcome : Nat → Outcome) (commands : List (List Char)) :
    ∀ i0 : Nat, (∀ f ∈ commands, ∃ c, plain_command f = some c) →
      (∀ i : Nat, outcome i ≠ Outcome.fork_failed) →
      ∃ runs, run_commands outcome i0 commands = some runs ∧
        runs.map some = commands.map plain_command := by
  induction commands with
  | nil => intro _ _ _; exact ⟨[], rfl, rfl⟩
  | cons fragment rest ih =>
    intro i0 hdef hfork
    obtain ⟨c, hc⟩ := hdef fragment (by simp)
    have hret : execute_command (outcome i0) = true := by
      have := hfork i0
      cases h : outcome i0 with
      | fork_failed => exact absurd h this
      | exited status => rfl
      | signalled => rfl
    obtain ⟨runs, hrun, hmap⟩ := ih (i0 + 1) (fun f hf => hdef f (by simp [hf])) hfork
    refine ⟨c :: runs, ?_, ?_⟩
    · simp only [run_commands, hc, hret, ↓reduceIte, hrun, Option.map_some']
    · simp only [List.map_cons, hc, hmap]

/-- With fewer than `MAX_COMMANDS` fragments, each fitting the `command` buffer and
holding at most two tokens, and every `fork` succeeding, `execute_commands` hands
every fragment to `execute_command` once, in order, whatever the children do. -/
theorem execute_commands_runs_all (outcome : Nat → Outcome) (input : List Char)
    (commands : List (List Char)) (hsplit : split_commands [';'] input = some commands)
    (hfit : ∀ f ∈ commands, f.length < MAX_INPUT_SIZE ∧
      (tokenize_input f).length < TOKENS_SLOTS)
    (hfork : ∀ i : Nat, outcome i ≠ Outcome.fork_failed) :
    ∃ runs, execute_commands outcome input = some runs ∧
      runs.map some = commands.map plain_command := by
  unfold execute_commands
  rw [hsplit]
  exact run_commands_all outcome commands 0
    (fun f hf => plain_command_defined f (hfit f hf).1 (hfit f hf).2) hfork

theorem strtok_loop_succ (delim : List Char) (n : Nat) (token rest : List Char) :
    strtok_loop delim (n + 1) (some (token, rest)) =
      token :: strtok_loop delim n (strtok delim rest) := rfl

theorem strtok_loop_none (delim : List Char) (n : Nat) : strtok_loop delim n none = [] := by
  cases n <;> rfl

theorem strtok_nil (delim : List Char) : strtok delim [] = none := rfl

theorem split_two (delim x z : List Char) (d : Char) (hx : x ≠ [])
    (hxd : ∀ c ∈ x, is_delim delim c = false) (hd : is_delim delim d = true)
    (hz : z ≠ []) (hzd : ∀ c ∈ z, is_delim delim c = false) :
    split_commands delim (x ++ d :: z) = some [x, z] := by
  unfold split_commands
  rw [strtok_token delim x d z hx hxd hd]
  have : strtok_loop delim MAX_COMMANDS (some (x, z)) = [x, z] := by
    rw [show MAX_COMMANDS = 98 + 1 + 1 from rfl, strtok_loop_succ, strtok_last delim z hz hzd,
      strtok_loop_succ, strtok_nil, strtok_loop_none]
  rw [this]
  rfl

theorem split_two_doubled (delim x z : List Char) (d e : Char) (hx : x ≠ [])
    (hxd : ∀ c ∈ x, is_delim delim c = false) (hd : is_delim delim d = true)
    (he : is_delim delim e = true)
    (hz : z ≠ []) (hzd : ∀ c ∈ z, is_delim delim c = false) :
    split_commands delim (x ++ d :: e :: z) = some [x, z] := by
  unfold split_commands
  rw [strtok_token delim x d (e :: z) hx hxd hd]
  have : strtok_loop delim MAX_COMMANDS (some (x, e :: z)) = [x, z] := by
    rw [show MAX_COMMANDS = 98 + 1 + 1 from rfl, strtok_loop_succ, strtok_skip delim e z he,
      strtok_last delim z hz hzd, strtok_loop_succ, strtok_nil, strtok_loop_none]
  rw [this]
  rfl

/-! ## Lemmas on the alias table -/

theorem table_of_cons (p : List Char × List Char) (ps : List (List Char × List Char)) (k : Nat) :
    table_of (p :: ps) k = ⟨some p.1, some p.2⟩ :: table_of ps k := rfl

theorem set_alias_cons_ne (name value n : List Char) (a : Alias) (rest : List Alias)
    (ha : a.name = some n) (hn : n ≠ name) :
    set_alias name value (a :: rest) =
      ((set_alias name value rest).1, a :: (set_alias name value rest).2) := by
  simp [set_alias, ha, hn]

theorem set_alias_cons_eq (name value : List Char) (a : Alias) (rest : List Alias)
    (ha : a.name = some name) :
    set_alias name value (a :: rest) = (0, ⟨some name, some value⟩ :: rest) := by
  simp [set_alias, ha]

theorem set_alias_cons_none (name value : List Char) (a : Alias) (rest : List Alias)
    (ha : a.name = none) :
    set_alias name value (a :: rest) = (0, ⟨some name, some value⟩ :: rest) := by
  simp [set_alias, ha]

theorem set_alias_table_of_mem (name value : List Char) (ps : List (List Char × List Char))
    (k : Nat) (h : name ∈ ps.map Prod.fst) :
    ∃ pre v post, ps = pre ++ (name, v) :: post ∧ name ∉ pre.map Prod.fst ∧
      set_alias name value (table_of ps k) = (0, table_of (pre ++ (name, value) :: post) k) := by
  induction ps with
  | nil => simp at h
  | cons p ps ih =>
    by_cases hp : p.1 = name
    · refine ⟨[], p.2, ps, ?_, by simp, ?_⟩
      · simp [← hp]
      · rw [table_of_cons, set_alias_cons_eq _ _ _ _ (by simp [hp])]
        rfl
    · have h' : name ∈ ps.map Prod.fst := by
        simp only [List.map_cons, List.mem_cons] at h
        rcases h with h | h
        · exact absurd h.symm hp
        · exact h
      obtain ⟨pre, v, post, e, hn, hs⟩ := ih h'
      refine ⟨p :: pre, v, post, by simp [e], ?_, ?_⟩
      · simp only [List.map_cons, List.mem_cons, not_or]
        exact ⟨fun e => hp e.symm, hn⟩
      · rw [table_of_cons, set_alias_cons_ne name value p.1 _ _ rfl hp, hs]
        rfl

theorem set_alias_table_of_not_mem_succ (name value : List Char)
    (ps : List (List Char × List Char)) (k : Nat) (h : name ∉ ps.map Prod.fst) :
    set_alias name value (table_of ps (k + 1)) = (0, table_of (ps ++ [(name, value)]) k) := by
  induction ps with
  | nil => simp [table_of, set_alias, List.replicate_succ]
  | cons p ps ih =>
    simp only [List.map_cons, List.mem_cons, not_or] at h
    have hp : ¬ p.1 = name := fun e => h.1 e.symm
    rw [table_of_cons, set_alias_cons_ne name value p.1 _ _ rfl hp, ih h.2]
    rfl

theorem set_alias_table_of_not_mem_zero (name value : List Char)
    (ps : List (List Char × List Char)) (h : name ∉ ps.map Prod.fst) :
    set_alias name value (table_of ps 0) = (-1, table_of ps 0) := by
  induction ps with
  | nil => simp [table_of, set_alias]
  | cons p ps ih =>
    simp only [List.map_cons, List.mem_cons, not_or] at h
    have hp : ¬ p.1 = name := fun e => h.1 e.symm
    rw [table_of_cons, set_alias_cons_ne name value p.1 _ _ rfl hp, ih h.2]

theorem wellFormed_init : WellFormed aliases_init :=
  ⟨[], MAX_ALIASES, rfl, by simp, by simp⟩

theorem wellFormed_set_alias (name value : List Char) (t : List Alias) (h : WellFormed t) :
    WellFormed (set_alias name value t).2 := by
  obtain ⟨ps, k, rfl, hlen, hnd⟩ := h
  by_cases hm : name ∈ ps.map Prod.fst
  · obtain ⟨pre, v, post, e, hn, hs⟩ := set_alias_table_of_mem name value ps k hm
    rw [hs]
    refine ⟨pre ++ (name, value) :: post, k, rfl, ?_, ?_⟩
    · rw [← hlen, e]; simp
    · rw [e] at hnd
      simpa using hnd
  · cases k with
    | zero =>
      rw [set_alias_table_of_not_mem_zero name value ps hm]
      exact ⟨ps, 0, rfl, hlen, hnd⟩
    | succ k =>
      rw [set_alias_table_of_not_mem_succ name value ps k hm]
      refine ⟨ps ++ [(name, value)], k, rfl, ?_, ?_⟩
      · rw [← hlen]; simp; omega
      · rw [List.map_append, List.nodup_append]
        refine ⟨hnd, by simp, ?_⟩
        intro a ha hb
        simp at hb
        exact hm (hb ▸ ha)

theorem wellFormed_of_reachable (t : List Alias) (h : Reachable t) : WellFormed t := by
  induction h with
  | init => exact wellFormed_init
  | step name value t _ ih => exact wellFormed_set_alias name value t ih

theorem print_aliases_table_of (ps : List (List Char × List Char)) (k : Nat) :
    print_aliases (table_of ps k) =
      ps.map (fun p => p.1 ++ "='".toList ++ p.2 ++ "'\n".toList) := by
  induction ps with
  | nil =>
    induction k with
    | zero => rfl
    | succ k ih =>
      simp only [table_of, List.map_nil, List.nil_append, print_aliases] at ih ⊢
      rw [List.replicate_succ, List.filterMap_cons]
      simp [alias_line]
  | cons p ps ih =>
    rw [table_of_cons, List.map_cons, ← ih]
    simp [print_aliases, alias_line]

theorem printed_names_table_of (ps : List (List Char × List Char)) (k : Nat) :
    printed_names (table_of ps k) = ps.map Prod.fst := by
  induction ps with
  | nil =>
    induction k with
    | zero => rfl
    | succ k ih =>
      simp only [table_of, List.map_nil, List.nil_append, printed_names] at ih ⊢
      rw [List.replicate_succ, List.filterMap_cons]
      simp
  | cons p ps ih =>
    rw [table_of_cons, List.map_cons, ← ih]
    simp [printed_names]

theorem populated_table_of (ps : List (List Char × List Char)) (k : Nat) :
    populated (table_of ps k) = ps.length := by
  induction ps with
  | nil =>
    induction k with
    | zero => rfl
    | succ k ih =>
      simp only [table_of, List.map_nil, List.nil_append, populated] at ih ⊢
      rw [List.replicate_succ, List.countP_cons]
      simp
  | cons p ps ih =>
    rw [table_of_cons, populated, List.countP_cons]
    simp only [populated] at ih
    simp [ih]

theorem table_of_length (ps : List (List Char × List Char)) (k : Nat) :
    (table_of ps k).length = ps.length + k := by
  simp [table_of]

theorem table_of_getElem?_lt (ps : List (List Char × List Char)) (k i : Nat)
    (h : i < ps.length) :
    (table_of ps k)[i]? = some ⟨some (ps.get ⟨i, h⟩).1, some (ps.get ⟨i, h⟩).2⟩ := by
  unfold table_of
  rw [List.getElem?_append_left (by simpa using h)]
  simp [List.getElem?_eq_getElem h]

theorem table_of_getElem?_ge (ps : List (List Char × List Char)) (k i : Nat)
    (h : ps.length ≤ i) (a : Alias) (ha : (table_of ps k)[i]? = some a) :
    a = ⟨none, none⟩ := by
  unfold table_of at ha
  rw [List.getElem?_append_right (by simpa using h)] at ha
  rw [List.getElem?_eq_some] at ha
  obtain ⟨_, e⟩ := ha
  simpa using e.symm

theorem table_of_set (pre post : List (List Char × List Char)) (p q : List Char × List Char)
    (k : Nat) :
    (table_of (pre ++ p :: post) k).set pre.length ⟨some q.1, some q.2⟩ =
      table_of (pre ++ q :: post) k := by
  induction pre with
  | nil => rfl
  | cons r pre ih =>
    rw [List.cons_append, table_of_cons, List.length_cons, List.set_cons_succ, ih]
    rfl

theorem table_of_set_first_empty (ps : List (List Char × List Char)) (q : List Char × List Char)
    (k : Nat) :
    (table_of ps (k + 1)).set ps.length ⟨some q.1, some q.2⟩ = table_of (ps ++ [q]) k := by
  induction ps with
  | nil => rfl
  | cons r ps ih =>
    rw [List.cons_append, table_of_cons, List.length_cons, List.set_cons_succ, ih]
    rfl

theorem table_of_getElem?_mid (pre post : List (List Char × List Char))
    (p : List Char × List Char) (k : Nat) :
    (table_of (pre ++ p :: post) k)[pre.length]? = some ⟨some p.1, some p.2⟩ := by
  induction pre with
  | nil => simp [table_of]
  | cons r pre ih =>
    rw [List.cons_append, table_of_cons, List.length_cons, List.getElem?_cons_succ, ih]

theorem countP_eq_one_of_nodup (l : List (List Char)) (a : List Char) (hnd : l.Nodup)
    (ha : a ∈ l) : l.countP (fun n => decide (n = a)) = 1 := by
  induction l with
  | nil => simp at ha
  | cons b l ih =>
    rw [List.nodup_cons] at hnd
    by_cases hb : b = a
    · subst hb
      rw [List.countP_cons_of_pos _ _ (by simp)]
      have : l.countP (fun n => decide (n = b)) = 0 := by
        rw [List.countP_eq_zero]
        intro x hx
        simp only [decide_eq_true_eq]
        intro e
        exact hnd.1 (e ▸ hx)
      omega
    · rw [List.countP_cons_of_neg _ _ (by simpa using hb)]
      rcases List.mem_cons.mp ha with e | e
      · exact absurd e.symm hb
      · exact ih hnd.2 e

/-- The three ways a `set_alias` call on a reachable table can go: the name is held
and its value is replaced, the name is new and takes the first empty slot, or
the name is new and the table is full. -/
theorem set_alias_reachable_cases (name value : List Char) (t : List Alias) (h : Reachable t) :
    ∃ ps k, t = table_of ps k ∧ ps.length + k = MAX_ALIASES ∧ (ps.map Prod.fst).Nodup ∧
      ((∃ pre v post, ps = pre ++ (name, v) :: post ∧
          set_alias name value t = (0, table_of (pre ++ (name, value) :: post) k)) ∨
       (name ∉ ps.map Prod.fst ∧ ∃ k', k = k' + 1 ∧
          set_alias name value t = (0, table_of (ps ++ [(name, value)]) k')) ∨
       (name ∉ ps.map Prod.fst ∧ k = 0 ∧ set_alias name value t = (-1, t))) := by
  obtain ⟨ps, k, rfl, hlen, hnd⟩ := wellFormed_of_reachable t h
  refine ⟨ps, k, rfl, hlen, hnd, ?_⟩
  by_cases hm : name ∈ ps.map Prod.fst
  · obtain ⟨pre, v, post, e, _, hs⟩ := set_alias_table_of_mem name value ps k hm
    exact Or.inl ⟨pre, v, post, e, hs⟩
  · cases k with
    | zero => exact Or.inr (Or.inr ⟨hm, rfl, set_alias_table_of_not_mem_zero name value ps hm⟩)
    | succ k =>
      exact Or.inr (Or.inl ⟨hm, k, rfl, set_alias_table_of_not_mem_succ name value ps k hm⟩)

theorem set_alias_full (name value : List Char) (t : List Alias)
    (hfull : ∀ a ∈ t, a.name ≠ none) (hnot : ∀ a ∈ t, a.name ≠ some name) :
    set_alias name value t = (-1, t) := by
  induction t with
  | nil => rfl
  | cons a rest ih =>
    have h1 := hfull a (by simp)
    have h2 := hnot a (by simp)
    cases hn : a.name with
    | none => exact absurd hn h1
    | some n =>
      have hne : n ≠ name := fun e => h2 (by rw [hn, e])
      rw [set_alias_cons_ne name value n a rest hn hne,
        ih (fun b hb => hfull b (by simp [hb])) (fun b hb => hnot b (by simp [hb]))]

/-! ## The claims -/

/-- C1: `strip_comments` returns exactly the text before the first `#` of the
line, character for character, and returns the line unchanged when it holds
no `#`. -/
theorem C1_strip_comments_before_hash (line : List Char) :
    (∀ pre post : List Char, '#' ∉ pre → line = pre ++ '#' :: post →
        strip_comments line = pre) ∧
    ('#' ∉ line → strip_comments line = line) := by
  refine ⟨?_, strip_comments_of_not_mem line⟩
  intro pre post hpre hline
  rw [hline]
  exact strip_comments_append_hash pre post hpre

/-- C1, at the lines `ls -l  # list` and `ls -l`. -/
theorem C1_strip_comments_before_hash_witness :
    strip_comments "ls -l  # list".toList = "ls -l  ".toList ∧
    strip_comments "ls -l".toList = "ls -l".toList :=
  ⟨(C1_strip_comments_before_hash "ls -l  # list".toList).1 "ls -l  ".toList " list".toList
      (by decide) (by decide),
   (C1_strip_comments_before_hash "ls -l".toList).2 (by decide)⟩

/-- C2 (the code at the failing input): for the line `echo $$ foo`, the process id
12345 and an empty fresh block, `replace_variables` returns `echo 12345 f`: the
two last characters of the line are lost, because the literal characters are
appended with `snprintf(temp, len + 1, ...)` and `len` is the length of the
unexpanded line plus one. -/
theorem C2_replace_variables_drops_characters :
    replace_variables 12345 [] "echo $$ foo".toList = "echo 12345 f".toList ∧
    replace_variables 12345 [] "echo $$ foo".toList ≠ "echo 12345 foo".toList := by
  decide

/-- C3 (the code at the failing input): whatever the process id, `replace_variables`
expands `echo $?` to `echo 0`; no exit status enters the function, the code
prints the constant `0`. -/
theorem C3_exit_status_is_constant_zero (pid : Nat) :
    replace_variables pid [] "echo $?".toList = "echo 0".toList ∧
    replace_variables pid [] "echo $?".toList ≠ "echo 1".toList := by
  have h : replace_variables pid [] "echo $?".toList = "echo 0".toList := by
    have hz : Nat.toDigits 10 0 = ['0'] := by decide
    simp [replace_variables, replace_variables_loop, snprintf, hz]
  rw [h]
  exact ⟨rfl, by decide⟩

theorem not_mem_replicate_a (n : Nat) (c : Char) (hc : c ≠ 'a') :
    c ∉ List.replicate n 'a' :=
  fun h => hc (List.eq_of_mem_replicate h)

theorem replace_variables_a_pid (n : Nat) :
    replace_variables 12345 [] (List.replicate n 'a' ++ ['$', '$'])
      = List.replicate n 'a' ++ ['1', '2', '3', '4', '5'] := by
  have hd : Nat.toDigits 10 12345 = ['1', '2', '3', '4', '5'] := by decide
  have hp := replace_variables_loop_plain 12345
    ((List.replicate n 'a' ++ ['$', '$']).length + 1)
    (List.replicate n 'a') [] ['$', '$']
    (not_mem_replicate_a n '$' (by decide))
    (by rw [List.length_append, List.length_replicate]; simp only [List.length_nil]; omega)
  unfold replace_variables
  rw [hp, List.nil_append]
  have hstep : ∀ (len : Nat) (result : List Char),
      replace_variables_loop 12345 len result ['$', '$']
        = snprintf (len + 10) (result ++ ['1', '2', '3', '4', '5']) := by
    intro len result
    simp only [replace_variables_loop, ↓reduceIte, hd]
  rw [hstep]
  unfold snprintf
  apply List.take_of_length_le
  simp only [List.length_append, List.length_replicate, List.length_cons, List.length_nil]
  omega

theorem fragment_too_long (n : Nat) (hn : MAX_INPUT_SIZE ≤ n + 5) :
    execute_logical_commands 12345 (fun _ => []) (fun _ => Outcome.exited 0)
      (List.replicate n 'a' ++ ['$', '$']) = none := by
  have hmem : ∀ c ∈ List.replicate n 'a' ++ ['1', '2', '3', '4', '5'],
      c ∈ ['a', '1', '2', '3', '4', '5'] := by
    intro c hc
    rcases List.mem_append.mp hc with h | h
    · rw [List.eq_of_mem_replicate h]; decide
    · exact List.mem_cons_of_mem _ h
  have hne : List.replicate n 'a' ++ ['1', '2', '3', '4', '5'] ≠ [] := by
    intro h
    have := congrArg List.length h
    simp only [List.length_append, List.length_cons, List.length_nil] at this
    omega
  have hdelim : ∀ c ∈ List.replicate n 'a' ++ ['1', '2', '3', '4', '5'],
      is_delim ['&', '|'] c = false := by
    have key : ∀ c ∈ ['a', '1', '2', '3', '4', '5'], is_delim ['&', '|'] c = false := by
      decide
    exact fun c hc => key c (hmem c hc)
  have hhash : '#' ∉ List.replicate n 'a' ++ ['1', '2', '3', '4', '5'] :=
    fun h => absurd (hmem _ h) (by decide)
  have hdollar : '$' ∉ List.replicate n 'a' ++ ['1', '2', '3', '4', '5'] :=
    fun h => absurd (hmem _ h) (by decide)
  have hfrag : logical_fragments 12345 [] (List.replicate n 'a' ++ ['$', '$'])
      = some [List.replicate n 'a' ++ ['1', '2', '3', '4', '5']] := by
    unfold logical_fragments split_commands
    rw [replace_variables_a_pid, strip_comments_of_not_mem _ hhash, strtok_last _ _ hne hdelim,
      show MAX_COMMANDS = 99 + 1 from rfl, strtok_loop_succ, strtok_nil, strtok_loop_none]
    rfl
  have hlen : ¬ (List.replicate n 'a' ++ ['1', '2', '3', '4', '5']).length < MAX_INPUT_SIZE := by
    simp only [List.length_append, List.length_replicate, List.length_cons, List.length_nil]
    omega
  unfold execute_logical_commands
  simp only [hfrag]
  unfold run_logical logical_command
  simp only [replace_variables_plain 12345 _ hdollar, hlen, ↓reduceIte]

set_option maxRecDepth 100000

/-- C4 (counterexamples to the claim as stated): with every child exiting 0, the line
`a&a&...&a` of 100 fragments makes the code write `commands[100]`, outside the
array of `MAX_COMMANDS` pointers, so no run of its fragments is defined; of the
101 fragments of the same line with one more `&a` only 100 are ever stored;
on the 1023-character line `long_line`, process id 12345, the expanded
fragment has 1026 characters and does not fit `char command[MAX_INPUT_SIZE]`;
and on the line `ls -l /tmp & true` the three tokens of the first fragment
and their closing NULL do not fit the block of `tokenize_input`. -/
theorem C4_counterexample :
    execute_logical_commands 1 (fun _ => []) (fun _ => Outcome.exited 0) (amp_line 100) = none ∧
    ((strtok_loop ['&', '|'] 101 (strtok ['&', '|'] (amp_line 101))).length = 101 ∧
      (strtok_loop ['&', '|'] MAX_COMMANDS (strtok ['&', '|'] (amp_line 101))).length = 100) ∧
    execute_logical_commands 12345 (fun _ => []) (fun _ => Outcome.exited 0) long_line = none ∧
    execute_logical_commands 1 (fun _ => []) (fun _ => Outcome.exited 0)
      "ls -l /tmp & true".toList = none := by
  refine ⟨by decide, by decide, fragment_too_long 1021 (by decide), by decide⟩

/-- C4 (amended): for every line of which the code stores fewer than `MAX_COMMANDS`
fragments (`logical_fragments` answers `some commands`), and every assignment
of outcomes such that each fragment the loop comes to (every fragment before
it exited with status 0), once expanded, fits the `command` buffer and holds
at most two tokens, `execute_logical_commands` runs the fragments in
left-to-right order, each once, and stops after the first one whose child
does not exit with status 0: `runs` lists the commands run; entry `j` comes
from fragment `j`; every run but the last exited with status 0; when a
fragment is left unrun, the last run did not; so the runs end with the first
fragment `n` that does not exit with status 0, and with the last fragment
when there is none. -/
theorem C4_stop_after_first_failure (pid : Nat) (fresh : Nat → List Char)
    (outcome : Nat → Outcome) (line : List Char) (commands : List (List Char))
    (hsplit : logical_fragments pid (fresh 0) line = some commands)
    (hfit : ∀ (j : Nat) (f : List Char), commands[j]? = some f →
        (∀ i : Nat, i < j → outcome i = Outcome.exited 0) →
        (replace_variables pid (fresh (j + 1)) f).length < MAX_INPUT_SIZE ∧
        (tokenize_input (replace_variables pid (fresh (j + 1)) f)).length < TOKENS_SLOTS) :
    ∃ runs, execute_logical_commands pid fresh outcome line = some runs ∧
      runs.length ≤ commands.length ∧
      (∀ j : Nat, j < runs.length → ∃ f, commands[j]? = some f ∧
          runs[j]? = logical_command pid fresh j f) ∧
      (∀ j : Nat, j + 1 < runs.length → outcome j = Outcome.exited 0) ∧
      (runs.length < commands.length →
          ∃ n, runs.length = n + 1 ∧ outcome n ≠ Outcome.exited 0) ∧
      (∀ n : Nat, n < commands.length → outcome n ≠ Outcome.exited 0 →
          (∀ j : Nat, j < n → outcome j = Outcome.exited 0) → runs.length = n + 1) ∧
      ((∀ j : Nat, j < commands.length → outcome j = Outcome.exited 0) →
          runs.length = commands.length) := by
  obtain ⟨runs, hrun, hlen, hord, hsucc, hstop⟩ := run_logical_spec pid fresh outcome commands 0
    (by
      intro j f hj hbefore
      rw [Nat.zero_add]
      have hb : ∀ i : Nat, i < j → outcome i = Outcome.exited 0 := by
        intro i hi
        have := hbefore i hi
        rwa [Nat.zero_add] at this
      exact logical_command_defined pid fresh j f (hfit j f hj hb).1 (hfit j f hj hb).2)
  simp only [Nat.zero_add] at hord hsucc hstop
  refine ⟨runs, ?_, hlen, hord, hsucc, hstop, ?_, ?_⟩
  · unfold execute_logical_commands
    rw [hsplit]
    exact hrun
  · intro n hn hfail hbefore
    by_contra hne
    rcases Nat.lt_or_gt_of_ne hne with hlt | hgt
    · obtain ⟨m, hm, hmf⟩ := hstop (by omega)
      exact hmf (hbefore m (by omega))
    · exact hfail (hsucc n hgt)
  · intro hall
    by_contra hne
    obtain ⟨m, hm, hmf⟩ := hstop (by omega)
    exact hmf (hall m (by omega))

/-- C4 (amended), at the lines `false & echo never` and `false & echo never again please`
with every child exiting 1: only `false` is run. -/
theorem C4_stop_after_first_failure_witness :
    execute_logical_commands 1 (fun _ => []) (fun _ => Outcome.exited 1)
        "false & echo never".toList = some ["false".toList] ∧
    execute_logical_commands 1 (fun _ => []) (fun _ => Outcome.exited 1)
        "false & echo never again please".toList = some ["false".toList] := by
  have key : ∀ second : List Char,
      logical_fragments 1 [] ("false &".toList ++ second) = some ["false ".toList, second] →
      execute_logical_commands 1 (fun _ => []) (fun _ => Outcome.exited 1)
        ("false &".toList ++ second) = some ["false".toList] := by
    intro second hsplit
    obtain ⟨runs, hrun, _, hord, _, _, hfirst, _⟩ :=
      C4_stop_after_first_failure 1 (fun _ => []) (fun _ => Outcome.exited 1)
        ("false &".toList ++ second) ["false ".toList, second] hsplit
        (by
          intro j f hj hbefore
          rcases j with _ | j
          · simp at hj; subst hj; decide
          · exact absurd (hbefore 0 (by omega)) (by decide))
    have hlen : runs.length = 1 := hfirst 0 (by simp) (by decide) (by intro j hj; omega)
    obtain ⟨f, hf, hr⟩ := hord 0 (by omega)
    simp only [List.getElem?_cons_zero, Option.some.injEq] at hf
    subst hf
    have hcmd : logical_command 1 (fun _ => []) 0 "false ".toList = some "false".toList := by
      decide
    rw [hcmd] at hr
    rw [hrun]
    match runs, hlen, hr with
    | [c], _, hr =>
      simp only [List.getElem?_cons_zero, Option.some.injEq] at hr
      rw [hr]
  exact ⟨key " echo never".toList (by decide), key " echo never again please".toList (by decide)⟩

/-- C5 (the code at the failing input): for the line `a;a;...;a` of exactly 100
fragments, with every child exiting 0, `execute_commands` stores 100 fragments
and then writes `commands[100] = NULL`, outside `char *commands[MAX_COMMANDS]`;
the run loop depends on that slot, so no run of the fragments is defined,
while the line of 99 fragments has all 99 run. -/
theorem C5_hundred_fragments_undefined :
    execute_commands (fun _ => Outcome.exited 0) (semi_line 100) = none ∧
    execute_commands (fun _ => Outcome.exited 0) (semi_line 99) =
      some (List.replicate 99 ['a']) := by
  refine ⟨by decide, by decide⟩

/-- C6 (counterexample to the claim as stated): `a && b` is split into the two
fragments `a ` and ` b`, while `a & & b` is split into three, `a `, ` ` and
` b`; with every child exiting 0 the first line runs `a` and `b`, the second
runs `a`, ` ` and `b`. -/
theorem C6_counterexample :
    logical_fragments 1 [] "a && b".toList = some ["a ".toList, " b".toList] ∧
    logical_fragments 1 [] "a & & b".toList = some ["a ".toList, " ".toList, " b".toList] ∧
    logical_fragments 1 [] "a && b".toList ≠ logical_fragments 1 [] "a & & b".toList ∧
    execute_logical_commands 1 (fun _ => []) (fun _ => Outcome.exited 0) "a && b".toList
      = some ["a".toList, "b".toList] ∧
    execute_logical_commands 1 (fun _ => []) (fun _ => Outcome.exited 0) "a & & b".toList
      = some ["a".toList, " ".toList, "b".toList] := by
  decide

/-- C6 (amended): the splitting of `execute_logical_commands` treats `&` and `|` as
single-character separators and stores no empty fragment, so that `x && y` is
split like `x & y`: for all texts `x` and `y` free of `&`, `|`, `#` and `$`,
with the fresh block of the first expansion empty, both lines give the two
fragments `x ` and ` y`, and therefore the same sequence of executed commands. -/
theorem C6_double_separator_is_single (pid : Nat) (fresh : Nat → List Char)
    (outcome : Nat → Outcome) (x y : List Char) (hfresh : fresh 0 = [])
    (hx : ∀ c ∈ x, c ∉ ['&', '|', '#', '$']) (hy : ∀ c ∈ y, c ∉ ['&', '|', '#', '$']) :
    logical_fragments pid [] (x ++ " && ".toList ++ y) = some [x ++ [' '], ' ' :: y] ∧
    logical_fragments pid [] (x ++ " & ".toList ++ y) = some [x ++ [' '], ' ' :: y] ∧
    execute_logical_commands pid fresh outcome (x ++ " && ".toList ++ y) =
      execute_logical_commands pid fresh outcome (x ++ " & ".toList ++ y) := by
  have hfree : ∀ (s : List Char) (c : Char), (∀ a ∈ s, a ∉ ['&', '|', '#', '$']) →
      c ∈ s ++ [' '] ∨ c ∈ ' ' :: s → c ∉ ['&', '|', '#', '$'] := by
    intro s c hs hc
    have : c ∈ s ∨ c = ' ' := by
      rcases hc with h | h
      · simpa using h
      · rcases List.mem_cons.mp h with h | h
        · exact Or.inr h
        · exact Or.inl h
    rcases this with h | h
    · exact hs c h
    · rw [h]; decide
  have hdel : ∀ c : Char, c ∉ ['&', '|', '#', '$'] → is_delim ['&', '|'] c = false := by
    intro c hc
    simp only [List.mem_cons, List.mem_singleton, List.not_mem_nil, or_false, not_or] at hc
    simp [is_delim, hc.1, hc.2.1]
  have hxd : ∀ c ∈ x ++ [' '], is_delim ['&', '|'] c = false :=
    fun c hc => hdel c (hfree x c hx (Or.inl hc))
  have hyd : ∀ c ∈ ' ' :: y, is_delim ['&', '|'] c = false :=
    fun c hc => hdel c (hfree y c hy (Or.inr hc))
  have hno : ∀ (c : Char) (l : List Char), c ∈ ['#', '$'] →
      l = x ++ " && ".toList ++ y ∨ l = x ++ " & ".toList ++ y → c ∉ l := by
    intro c l hc hl hmem
    have hin : c ∈ x ∨ c ∈ y ∨ c = ' ' ∨ c = '&' := by
      rcases hl with rfl | rfl <;>
        simp only [List.mem_append, String.toList, List.mem_cons, List.mem_singleton,
          List.not_mem_nil, or_false] at hmem <;> tauto
    have hc' : c ∈ ['&', '|', '#', '$'] := by
      simp only [List.mem_cons, List.mem_singleton, List.not_mem_nil, or_false] at hc ⊢
      tauto
    rcases hin with h | h | h | h
    · exact hx c h hc'
    · exact hy c h hc'
    · rw [h] at hc; revert hc; decide
    · rw [h] at hc; revert hc; decide
  have e2 : x ++ " && ".toList ++ y = (x ++ [' ']) ++ '&' :: '&' :: (' ' :: y) := by
    simp [String.toList]
  have e1 : x ++ " & ".toList ++ y = (x ++ [' ']) ++ '&' :: (' ' :: y) := by
    simp [String.toList]
  have h2 : logical_fragments pid [] (x ++ " && ".toList ++ y) = some [x ++ [' '], ' ' :: y] := by
    unfold logical_fragments
    rw [replace_variables_plain pid _ (hno '$' _ (by decide) (Or.inl rfl)),
      strip_comments_of_not_mem _ (hno '#' _ (by decide) (Or.inl rfl)), e2]
    exact split_two_doubled _ _ _ '&' '&' (by simp) hxd rfl rfl (by simp) hyd
  have h1 : logical_fragments pid [] (x ++ " & ".toList ++ y) = some [x ++ [' '], ' ' :: y] := by
    unfold logical_fragments
    rw [replace_variables_plain pid _ (hno '$' _ (by decide) (Or.inr rfl)),
      strip_comments_of_not_mem _ (hno '#' _ (by decide) (Or.inr rfl)), e1]
    exact split_two _ _ _ '&' (by simp) hxd rfl (by simp) hyd
  refine ⟨h2, h1, ?_⟩
  unfold execute_logical_commands
  rw [hfresh, h2, h1]

/-- C6 (amended), at `a && b` and `a & b`. -/
theorem C6_double_separator_is_single_witness :
    logical_fragments 1 [] ("a".toList ++ " && ".toList ++ "b".toList)
      = some ["a".toList ++ [' '], ' ' :: "b".toList] ∧
    logical_fragments 1 [] ("a".toList ++ " & ".toList ++ "b".toList)
      = some ["a".toList ++ [' '], ' ' :: "b".toList] ∧
    execute_logical_commands 1 (fun _ => []) (fun _ => Outcome.exited 0)
        ("a".toList ++ " && ".toList ++ "b".toList) =
      execute_logical_commands 1 (fun _ => []) (fun _ => Outcome.exited 0)
        ("a".toList ++ " & ".toList ++ "b".toList) :=
  C6_double_separator_is_single 1 (fun _ => []) (fun _ => Outcome.exited 0)
    "a".toList "b".toList rfl (by decide) (by decide)

/-- C7: alias round trip.  For every table reachable from the empty table by
`set_alias` calls and every name and value, if `set_alias(name, value)` returns 0
then `print_aliases` writes the line `name='value'`, and exactly one of the
lines it writes comes from a slot with that name. -/
theorem C7_alias_round_trip (t : List Alias) (name value : List Char) (h : Reachable t)
    (h0 : (set_alias name value t).1 = 0) :
    (name ++ "='".toList ++ value ++ "'\n".toList) ∈ print_aliases (set_alias name value t).2 ∧
    (printed_names (set_alias name value t).2).countP (fun n => decide (n = name)) = 1 := by
  have hwf := wellFormed_set_alias name value t (wellFormed_of_reachable t h)
  obtain ⟨ps, k, -, -, -, hc⟩ := set_alias_reachable_cases name value t h
  have key : ∀ ps' : List (List Char × List Char), ∀ k' : Nat,
      (set_alias name value t).2 = table_of ps' k' → (name, value) ∈ ps' →
      (ps'.map Prod.fst).Nodup →
      (name ++ "='".toList ++ value ++ "'\n".toList) ∈ print_aliases (set_alias name value t).2 ∧
      (printed_names (set_alias name value t).2).countP (fun n => decide (n = name)) = 1 := by
    intro ps' k' e hmem hnd
    rw [e, print_aliases_table_of, printed_names_table_of]
    refine ⟨List.mem_map.mpr ⟨(name, value), hmem, rfl⟩, ?_⟩
    exact countP_eq_one_of_nodup _ name hnd (List.mem_map.mpr ⟨(name, value), hmem, rfl⟩)
  obtain ⟨ps', k', e', -, hnd'⟩ := hwf
  rcases hc with ⟨pre, v, post, _, hs⟩ | ⟨_, k2, _, hs⟩ | ⟨_, _, hs⟩
  · have e2 : (set_alias name value t).2 = table_of (pre ++ (name, value) :: post) k := by rw [hs]
    refine key _ _ e2 (by simp) ?_
    have := congrArg printed_names (e2.symm.trans e')
    rw [printed_names_table_of, printed_names_table_of] at this
    rw [this]; exact hnd'
  · have e2 : (set_alias name value t).2 = table_of (ps ++ [(name, value)]) k2 := by rw [hs]
    refine key _ _ e2 (by simp) ?_
    have := congrArg printed_names (e2.symm.trans e')
    rw [printed_names_table_of, printed_names_table_of] at this
    rw [this]; exact hnd'
  · rw [hs] at h0
    simp at h0

/-- C7, at the empty table with `ll` and `ls -l`. -/
theorem C7_alias_round_trip_witness :
    "ll='ls -l'\n".toList ∈ print_aliases (set_alias "ll".toList "ls -l".toList aliases_init).2 ∧
    (printed_names (set_alias "ll".toList "ls -l".toList aliases_init).2).countP
      (fun n => decide (n = "ll".toList)) = 1 :=
  C7_alias_round_trip aliases_init "ll".toList "ls -l".toList Reachable.init (by decide)

/-- C8: for every reachable table that already holds `name` (a full table included),
`set_alias(name, newValue)` returns 0, the table after the call is the table
before it with the slot of that name set to the pair of `name` and `newValue`,
every other slot unchanged, and the number of populated slots is the same. -/
theorem C8_set_alias_update_in_place (t : List Alias) (name newValue : List Char)
    (h : Reachable t) (hheld : ∃ a ∈ t, a.name = some name) :
    (set_alias name newValue t).1 = 0 ∧
    (∃ i, (∃ a, t[i]? = some a ∧ a.name = some name) ∧
      (set_alias name newValue t).2 = t.set i ⟨some name, some newValue⟩) ∧
    populated (set_alias name newValue t).2 = populated t := by
  obtain ⟨ps, k, rfl, hlen, hnd, hc⟩ := set_alias_reachable_cases name newValue t h
  have hmem : name ∈ ps.map Prod.fst := by
    obtain ⟨a, ha, hn⟩ := hheld
    have : name ∈ printed_names (table_of ps k) := by
      rw [printed_names_table_of]
      unfold table_of at ha
      rcases List.mem_append.mp ha with ha | ha
      · obtain ⟨p, hp, rfl⟩ := List.mem_map.mp ha
        simp only [Option.some.injEq] at hn
        exact List.mem_map.mpr ⟨p, hp, hn⟩
      · have := List.eq_of_mem_replicate ha
        rw [this] at hn
        simp at hn
    rwa [printed_names_table_of] at this
  rcases hc with ⟨pre, v, post, e, hs⟩ | ⟨hn, _⟩ | ⟨hn, _⟩
  · subst e
    rw [hs]
    refine ⟨rfl, ⟨pre.length, ⟨⟨some name, some v⟩, ?_, rfl⟩, ?_⟩, ?_⟩
    · exact table_of_getElem?_mid pre post (name, v) k
    · exact (table_of_set pre post (name, v) (name, newValue) k).symm
    · rw [populated_table_of, populated_table_of]; simp
  · exact absurd hmem hn
  · exact absurd hmem hn

/-- C8, at the table holding `ll` with `ls -l`, updated to `ls -la`. -/
theorem C8_set_alias_update_in_place_witness :
    (set_alias "ll".toList "ls -la".toList
        (set_alias "ll".toList "ls -l".toList aliases_init).2).1 = 0 ∧
    (∃ i, (∃ a, (set_alias "ll".toList "ls -l".toList aliases_init).2[i]? = some a ∧
          a.name = some "ll".toList) ∧
      (set_alias "ll".toList "ls -la".toList
          (set_alias "ll".toList "ls -l".toList aliases_init).2).2 =
        (set_alias "ll".toList "ls -l".toList aliases_init).2.set i
          ⟨some "ll".toList, some "ls -la".toList⟩) ∧
    populated (set_alias "ll".toList "ls -la".toList
        (set_alias "ll".toList "ls -l".toList aliases_init).2).2 =
      populated (set_alias "ll".toList "ls -l".toList aliases_init).2 :=
  C8_set_alias_update_in_place (set_alias "ll".toList "ls -l".toList aliases_init).2
    "ll".toList "ls -la".toList
    (Reachable.step "ll".toList "ls -l".toList aliases_init Reachable.init)
    ⟨⟨some "ll".toList, some "ls -l".toList⟩, by decide, rfl⟩

/-- C9: for every table in which all `MAX_ALIASES` slots are populated and every name
that is in none of them, `set_alias(name, value)` returns -1 and leaves the
table as it was. -/
theorem C9_set_alias_full_table (t : List Alias) (name value : List Char)
    (_hlen : t.length = MAX_ALIASES) (hfull : ∀ a ∈ t, a.name ≠ none)
    (hnot : ∀ a ∈ t, a.name ≠ some name) :
    (set_alias name value t).1 = -1 ∧ (set_alias name value t).2 = t := by
  rw [set_alias_full name value t hfull hnot]
  exact ⟨rfl, rfl⟩

/-- C9, at the full table with the names `0` to `9` and the new name `ll`. -/
theorem C9_set_alias_full_table_witness :
    (set_alias "ll".toList "ls -l".toList full_table).1 = -1 ∧
    (set_alias "ll".toList "ls -l".toList full_table).2 = full_table :=
  C9_set_alias_full_table full_table "ll".toList "ls -l".toList (by decide) (by decide)
    (by decide)

/-- C10: alias table invariant.  Every table reachable from the empty table by
`set_alias` calls has `MAX_ALIASES` slots; no two populated slots hold the same
name; the populated slots come before the empty ones; a name that is not held
goes to the first empty slot when there is one; and the names held are
distinct and at most `MAX_ALIASES`. -/
theorem C10_alias_table_invariant (t : List Alias) (h : Reachable t) :
    t.length = MAX_ALIASES ∧
    (∀ (i j : Nat) (a b : Alias), t[i]? = some a → t[j]? = some b → a.name ≠ none →
      a.name = b.name → i = j) ∧
    (∀ (i j : Nat) (a b : Alias), i ≤ j → t[i]? = some a → t[j]? = some b → b.name ≠ none →
      a.name ≠ none) ∧
    (∀ name value, (∀ a ∈ t, a.name ≠ some name) → populated t < MAX_ALIASES →
      set_alias name value t = (0, t.set (populated t) ⟨some name, some value⟩)) ∧
    (printed_names t).Nodup ∧ (printed_names t).length ≤ MAX_ALIASES ∧
    populated t ≤ MAX_ALIASES := by
  obtain ⟨ps, k, rfl, hlen, hnd⟩ := wellFormed_of_reachable t h
  have hidx : ∀ i a, (table_of ps k)[i]? = some a → a.name ≠ none →
      ∃ hi : i < ps.length, a = ⟨some (ps.get ⟨i, hi⟩).1, some (ps.get ⟨i, hi⟩).2⟩ := by
    intro i a ha hn
    by_cases hi : i < ps.length
    · refine ⟨hi, ?_⟩
      rw [table_of_getElem?_lt ps k i hi] at ha
      exact (Option.some.inj ha).symm
    · have := table_of_getElem?_ge ps k i (by omega) a ha
      rw [this] at hn
      exact absurd rfl hn
  refine ⟨by rw [table_of_length, hlen], ?_, ?_, ?_, ?_, ?_, ?_⟩
  · intro i j a b ha hb hn hab
    obtain ⟨hi, ea⟩ := hidx i a ha hn
    obtain ⟨hj, eb⟩ := hidx j b hb (hab ▸ hn)
    rw [ea, eb] at hab
    simp only [Option.some.injEq] at hab
    have hnd' := hnd
    rw [List.nodup_iff_injective_get] at hnd'
    have := @hnd' ⟨i, by simpa using hi⟩ ⟨j, by simpa using hj⟩ (by simpa using hab)
    simpa using congrArg Fin.val this
  · intro i j a b hij ha hb hn
    obtain ⟨hj, _⟩ := hidx j b hb hn
    rw [table_of_getElem?_lt ps k i (by omega)] at ha
    rw [← Option.some.inj ha]
    simp
  · intro name value hnot hlt
    rw [populated_table_of] at hlt ⊢
    have hm : name ∉ ps.map Prod.fst := by
      intro hm
      obtain ⟨p, hp, rfl⟩ := List.mem_map.mp hm
      exact hnot ⟨some p.1, some p.2⟩
        (by unfold table_of; exact List.mem_append_left _ (List.mem_map.mpr ⟨p, hp, rfl⟩)) rfl
    obtain ⟨k', rfl⟩ : ∃ k', k = k' + 1 := ⟨k - 1, by omega⟩
    rw [set_alias_table_of_not_mem_succ name value ps k' hm]
    rw [table_of_set_first_empty ps (name, value) k']
  · rw [printed_names_table_of]; exact hnd
  · rw [printed_names_table_of]; simp; omega
  · rw [populated_table_of]; omega


/-- C10, at the table reached by setting `ll` and then `la`. -/
theorem C10_alias_table_invariant_witness :
    (set_alias "la".toList "ls -a".toList
        (set_alias "ll".toList "ls -l".toList aliases_init).2).2.length = MAX_ALIASES ∧
    (printed_names (set_alias "la".toList "ls -a".toList
        (set_alias "ll".toList "ls -l".toList aliases_init).2).2).Nodup ∧
    populated (set_alias "la".toList "ls -a".toList
        (set_alias "ll".toList "ls -l".toList aliases_init).2).2 ≤ MAX_ALIASES :=
  have h := C10_alias_table_invariant
    (set_alias "la".toList "ls -a".toList (set_alias "ll".toList "ls -l".toList aliases_init).2).2
    (Reachable.step _ _ _ (Reachable.step _ _ _ Reachable.init))
  ⟨h.1, h.2.2.2.2.1, h.2.2.2.2.2.2⟩

/-! ## The claims on the path search, the tokens, the aliases and the main loop -/

theorem find_command_path_loop_eq (command : List Char) (file_exists : List Char → Bool) :
    ∀ (n : Nat) (t : Option (List Char × List Char)),
      find_command_path_loop command file_exists n t =
        first_existing (strtok_loop [':'] n t) command file_exists := by
  intro n
  induction n with
  | zero =>
    intro t
    cases t with
    | none => rfl
    | some p => rfl
  | succ n ih =>
    intro t
    cases t with
    | none => rfl
    | some p =>
      obtain ⟨token, rest⟩ := p
      simp only [find_command_path_loop, strtok_loop, first_existing, List.find?_cons]
      by_cases h : file_exists (token ++ '/' :: command) = true
      · simp [h]
      · simp only [h, Bool.false_eq_true, ↓reduceIte]
        rw [ih]
        rfl

/-- More iterations than `path.length` give the same answer. -/
theorem find_command_path_fuel (p command : List Char) (file_exists : List Char → Bool)
    (m : Nat) (h : p.length ≤ m) :
    find_command_path_loop command file_exists m (strtok [':'] p) =
      find_command_path (some p) command file_exists := by
  show _ = find_command_path_loop command file_exists p.length (strtok [':'] p)
  rw [find_command_path_loop_eq, find_command_path_loop_eq,
    strtok_loop_enough [':'] p.length p (Nat.le_refl _) m h]

theorem join_path_length (dirs : List (List Char)) (h : ∀ d ∈ dirs, d ≠ []) :
    dirs.length ≤ (join_path dirs).length := by
  induction dirs with
  | nil => simp
  | cons d ds ih =>
    have hd : 0 < d.length := List.length_pos.mpr (h d (by simp))
    cases ds with
    | nil => simp only [join_path, List.length_singleton]; omega
    | cons e ds =>
      have := ih (fun x hx => h x (by simp [hx]))
      simp only [join_path, List.length_append, List.length_cons] at this ⊢
      omega

theorem strtok_loop_join_path (dirs : List (List Char))
    (h : ∀ d ∈ dirs, d ≠ [] ∧ ':' ∉ d) :
    ∀ n : Nat, dirs.length ≤ n →
      strtok_loop [':'] n (strtok [':'] (join_path dirs)) = dirs := by
  have hcolon : ∀ d : List Char, ':' ∉ d → ∀ c ∈ d, is_delim [':'] c = false := by
    intro d hd c hc
    have : c ≠ ':' := fun e => hd (e ▸ hc)
    simp [is_delim, this]
  induction dirs with
  | nil => intro n _; rw [join_path, strtok_nil, strtok_loop_none]
  | cons d ds ih =>
    intro n hn
    obtain ⟨hne, hd⟩ := h d (by simp)
    obtain ⟨n', rfl⟩ : ∃ n', n = n' + 1 := ⟨n - 1, by simp at hn; omega⟩
    cases ds with
    | nil =>
      rw [join_path, strtok_last [':'] d hne (hcolon d hd), strtok_loop_succ, strtok_nil,
        strtok_loop_none]
    | cons e ds =>
      rw [join_path, strtok_token [':'] d ':' _ hne (hcolon d hd) rfl, strtok_loop_succ,
        ih (fun x hx => h x (by simp [hx])) n' (by simp at hn ⊢; omega)]

/-- C11: `find_command_path` returns NULL when `PATH` is unset; for every value of
`PATH` it returns `<dir>/<command>` for the leftmost directory of `PATH` (the
tokens `strtok` cuts at the colons) whose candidate exists, and NULL when none
does; and when `PATH` lists the non-empty, colon-free directories `dirs`,
separated by colons, those directories are the tokens. -/
theorem C11_find_command_path (command : List Char) (file_exists : List Char → Bool) :
    find_command_path none command file_exists = none ∧
    (∀ p : List Char, find_command_path (some p) command file_exists =
        first_existing (strtok_loop [':'] p.length (strtok [':'] p)) command file_exists) ∧
    (∀ dirs : List (List Char), (∀ d ∈ dirs, d ≠ [] ∧ ':' ∉ d) →
        find_command_path (some (join_path dirs)) command file_exists =
          first_existing dirs command file_exists) ∧
    (∀ dirs : List (List Char), (∀ d ∈ dirs, d ≠ [] ∧ ':' ∉ d) →
        (∀ d ∈ dirs, file_exists (d ++ '/' :: command) = false) →
        find_command_path (some (join_path dirs)) command file_exists = none) := by
  have hjoin : ∀ dirs : List (List Char), (∀ d ∈ dirs, d ≠ [] ∧ ':' ∉ d) →
      find_command_path (some (join_path dirs)) command file_exists =
        first_existing dirs command file_exists := by
    intro dirs h
    show find_command_path_loop command file_exists _ _ = _
    rw [find_command_path_loop_eq,
      strtok_loop_join_path dirs h _ (join_path_length dirs (fun d hd => (h d hd).1))]
  refine ⟨rfl, ?_, hjoin, ?_⟩
  · intro p
    exact find_command_path_loop_eq command file_exists _ _
  · intro dirs h hnone
    rw [hjoin dirs h]
    unfold first_existing
    rw [List.find?_eq_none.mpr (by intro d hd; simp [hnone d hd])]
    rfl

/-- C11, with `PATH=/bin:/usr/bin` and the file `ls` present under `/usr/bin` only. -/
theorem C11_find_command_path_witness :
    find_command_path (some "/bin:/usr/bin".toList) "ls".toList
        (fun f => decide (f = "/usr/bin/ls".toList)) = some "/usr/bin/ls".toList ∧
    find_command_path (some "/bin:/usr/bin".toList) "ls".toList (fun _ => false) = none :=
  ⟨((C11_find_command_path "ls".toList (fun f => decide (f = "/usr/bin/ls".toList))).2.2.1
      ["/bin".toList, "/usr/bin".toList] (by decide)).trans (by decide),
   (C11_find_command_path "ls".toList (fun _ => false)).2.2.2
      ["/bin".toList, "/usr/bin".toList] (by decide) (by decide)⟩

theorem strtok_gap (delim gap s : List Char) (hgap : ∀ c ∈ gap, is_delim delim c = true) :
    strtok delim (gap ++ s) = strtok delim s := by
  induction gap with
  | nil => rfl
  | cons c gap ih =>
    rw [List.cons_append, strtok_skip delim c _ (hgap c (by simp)),
      ih (fun x hx => hgap x (by simp [hx]))]

theorem strtok_drop_one (delim after : List Char)
    (h : after = [] ∨ ∃ d rest, after = d :: rest ∧ is_delim delim d = true) :
    strtok delim (after.drop 1) = strtok delim after := by
  rcases h with rfl | ⟨d, rest, rfl, hd⟩
  · rfl
  · rw [strtok_skip delim d rest hd]; rfl

theorem strtok_run (delim gap t after : List Char)
    (hgap : ∀ c ∈ gap, is_delim delim c = true) (hne : t ≠ [])
    (ht : ∀ c ∈ t, is_delim delim c = false)
    (hafter : after = [] ∨ ∃ d rest, after = d :: rest ∧ is_delim delim d = true) :
    strtok delim (gap ++ t ++ after) = some (t, after.drop 1) := by
  rw [List.append_assoc, strtok_gap delim gap _ hgap]
  rcases hafter with rfl | ⟨d, rest, rfl, hd⟩
  · rw [List.append_nil, strtok_last delim t hne ht]; rfl
  · rw [strtok_token delim t d rest hne ht hd]; rfl

/-- The tokens of the successive `strtok` calls are the maximal runs, and no other
list is. -/
theorem strtok_loop_of_runs (delim s : List Char) (ts : List (List Char))
    (h : Runs delim s ts) :
    ∀ n : Nat, s.length ≤ n → strtok_loop delim n (strtok delim s) = ts := by
  induction h with
  | done gap hgap =>
    intro n _
    have := strtok_gap delim gap [] hgap
    rw [List.append_nil] at this
    rw [this, strtok_nil, strtok_loop_none]
  | run gap t after ts hgap hne ht hafter _ ih =>
    intro n hn
    have hpos : 0 < t.length := List.length_pos.mpr hne
    simp only [List.length_append] at hn
    obtain ⟨n', rfl⟩ : ∃ n', n = n' + 1 := ⟨n - 1, by omega⟩
    rw [strtok_run delim gap t after hgap hne ht hafter, strtok_loop_succ,
      strtok_drop_one delim after hafter, ih n' (by omega)]

theorem strtok_none_all (delim s : List Char) (h : strtok delim s = none) :
    ∀ c ∈ s, is_delim delim c = true := by
  unfold strtok at h
  cases hs : s.dropWhile (is_delim delim) with
  | nil => exact List.dropWhile_eq_nil_iff.mp hs
  | cons c cs => rw [hs] at h; simp at h

theorem strtok_some_run (delim s t rest : List Char) (h : strtok delim s = some (t, rest)) :
    ∃ gap after, s = gap ++ t ++ after ∧ rest = after.drop 1 ∧
      (∀ c ∈ gap, is_delim delim c = true) ∧ t ≠ [] ∧ (∀ c ∈ t, is_delim delim c = false) ∧
      (after = [] ∨ ∃ d r, after = d :: r ∧ is_delim delim d = true) := by
  unfold strtok at h
  cases hs : s.dropWhile (is_delim delim) with
  | nil => rw [hs] at h; simp at h
  | cons c cs =>
    rw [hs] at h
    simp only [Option.some.injEq, Prod.mk.injEq] at h
    have hc : is_delim delim c = false := by
      have := List.head?_dropWhile_not (is_delim delim) s
      rw [hs] at this
      simpa using this
    refine ⟨s.takeWhile (is_delim delim),
      (c :: cs).dropWhile (fun x => !is_delim delim x), ?_, h.2.symm, ?_, ?_, ?_, ?_⟩
    · rw [← h.1, List.append_assoc, List.takeWhile_append_dropWhile, ← hs,
        List.takeWhile_append_dropWhile]
    · intro x hx
      exact List.mem_takeWhile_imp hx
    · rw [← h.1, List.takeWhile_cons]
      simp [hc]
    · intro x hx
      rw [← h.1] at hx
      have := List.mem_takeWhile_imp hx
      simpa using this
    · cases ha : (c :: cs).dropWhile (fun x => !is_delim delim x) with
      | nil => exact Or.inl rfl
      | cons d r =>
        refine Or.inr ⟨d, r, rfl, ?_⟩
        have := List.head?_dropWhile_not (fun x => !is_delim delim x) (c :: cs)
        rw [ha] at this
        simpa using this

theorem runs_of_strtok_loop (delim : List Char) :
    ∀ (n : Nat) (s : List Char), s.length ≤ n →
      Runs delim s (strtok_loop delim n (strtok delim s)) := by
  intro n
  induction n with
  | zero =>
    intro s hs
    have : s = [] := List.length_eq_zero.mp (by omega)
    subst this
    rw [strtok_nil, strtok_loop_none]
    exact Runs.done [] (by simp)
  | succ n ih =>
    intro s hs
    cases h : strtok delim s with
    | none =>
      rw [strtok_loop_none]
      exact Runs.done s (strtok_none_all delim s h)
    | some p =>
      obtain ⟨t, rest⟩ := p
      obtain ⟨gap, after, rfl, hrest, hgap, hne, ht, hafter⟩ := strtok_some_run delim s t rest h
      have hpos : 0 < t.length := List.length_pos.mpr hne
      simp only [List.length_append] at hs
      rw [strtok_loop_succ, hrest, strtok_drop_one delim after hafter]
      exact Runs.run gap t after _ hgap hne ht hafter (ih after (by omega))

theorem runs_tokens (delim s : List Char) (ts : List (List Char)) (h : Runs delim s ts) :
    ∀ t ∈ ts, t ≠ [] ∧ ∀ c ∈ t, is_delim delim c = false := by
  induction h with
  | done gap _ => intro t ht; simp at ht
  | run gap t after ts _ hne ht _ _ ih =>
    intro x hx
    rcases List.mem_cons.mp hx with rfl | hx
    · exact ⟨hne, ht⟩
    · exact ih x hx

/-- C12 (counterexamples to the claim as stated): the line `a<TAB>b` gives the single
token `a<TAB>b`, which holds a tab, because `strtok` is called with the
delimiter string `" "`; and for the line `ls -l /tmp` the three tokens and the
closing NULL do not fit the three pointers of the block. -/
theorem C12_counterexample :
    tokenize_input_block ['a', '\t', 'b'] = some [['a', '\t', 'b']] ∧
    tokenize_input_block "ls -l /tmp".toList = none := by
  decide

/-- C12 (amended): every line has its maximal runs of non-space characters, and for
every line whose runs, with the closing NULL, fit the block (at most two
runs), `tokenize_input` returns exactly these runs, in order: every token is
non-empty and contains no space, the other characters (tab and quotes too) are
token characters, and the empty line yields the empty sequence. -/
theorem C12_tokenize_input_runs (line : List Char) :
    (∃ ts, Runs [' '] line ts) ∧
    (∀ ts, Runs [' '] line ts → ts.length < TOKENS_SLOTS →
      tokenize_input_block line = some ts ∧ (∀ t ∈ ts, t ≠ [] ∧ ' ' ∉ t)) ∧
    tokenize_input_block [] = some [] := by
  refine ⟨⟨_, runs_of_strtok_loop [' '] line.length line (Nat.le_refl _)⟩, ?_, rfl⟩
  intro ts hruns hfit
  have htok : tokenize_input line = ts :=
    strtok_loop_of_runs [' '] line ts hruns line.length (Nat.le_refl _)
  refine ⟨?_, ?_⟩
  · unfold tokenize_input_block
    rw [htok, if_pos (by omega)]
  · intro t ht
    obtain ⟨hne, hfree⟩ := runs_tokens [' '] line ts hruns t ht
    refine ⟨hne, fun hmem => ?_⟩
    have := hfree ' ' hmem
    revert this
    decide

/-- C12 (amended), at the line `ls  "-l` with two spaces and a quote. -/
theorem C12_tokenize_input_runs_witness :
    tokenize_input_block "ls  \"-l".toList = some ["ls".toList, "\"-l".toList] ∧
    (∀ t ∈ ["ls".toList, "\"-l".toList], t ≠ [] ∧ ' ' ∉ t) :=
  (C12_tokenize_input_runs "ls  \"-l".toList).2.1 ["ls".toList, "\"-l".toList]
    (Runs.run [] "ls".toList "  \"-l".toList ["\"-l".toList] (by decide) (by decide)
      (by decide) (Or.inr ⟨' ', " \"-l".toList, rfl, rfl⟩)
      (Runs.run "  ".toList "\"-l".toList [] [] (by decide) (by decide) (by decide)
        (Or.inl rfl) (Runs.done [] (by decide))))
    (by decide)

/-- The block of `tokenize_input` holds the tokens and the closing NULL exactly when
there are at most two tokens. -/
theorem tokenize_input_block_fits (line : List Char) :
    (TOKENS_SLOTS ≤ (tokenize_input line).length → tokenize_input_block line = none) ∧
    ((tokenize_input line).length < TOKENS_SLOTS →
      tokenize_input_block line = some (tokenize_input line)) := by
  refine ⟨?_, ?_⟩
  · intro h
    unfold tokenize_input_block
    rw [if_neg (by omega)]
  · intro h
    unfold tokenize_input_block
    rw [if_pos (by omega)]

/-- C13 (the code at the failing input): the line `ls -l /tmp` has three tokens; with
the closing NULL they take four slots, the block has `TOKENS_SLOTS = 3`
pointers, so `tokens[3] = NULL` is stored outside the block; the line `ls -l`
fits. -/
theorem C13_three_tokens_overflow :
    tokenize_input "ls -l /tmp".toList = ["ls".toList, "-l".toList, "/tmp".toList] ∧
    TOKENS_SLOTS < (tokenize_input "ls -l /tmp".toList).length + 1 ∧
    tokenize_input_block "ls -l /tmp".toList = none ∧
    tokenize_input_block "ls -l".toList = some ["ls".toList, "-l".toList] := by
  decide

theorem is_delim_eq_of_not_mem (s : List Char) (h : '=' ∉ s) :
    ∀ c ∈ s, is_delim ['='] c = false := by
  intro c hc
  have : c ≠ '=' := fun e => h (e ▸ hc)
  simp [is_delim, this]

/-- C14 (counterexample to the claim as stated): on the table that holds `ll`, the
argument `ll`, which contains no `=`, makes `shell_alias` write nothing, while
`print_aliases` writes the line of `ll`. -/
theorem C14_counterexample :
    shell_alias "ll".toList (set_alias "ll".toList "ls -l".toList aliases_init).2
      = ([], (set_alias "ll".toList "ls -l".toList aliases_init).2) ∧
    print_aliases (set_alias "ll".toList "ls -l".toList aliases_init).2
      = ["ll='ls -l'\n".toList] := by
  decide

/-- C14 (amended): for the empty argument text `shell_alias` lists all aliases: it
writes exactly what `print_aliases` writes and leaves the table unchanged; for
every non-empty text that contains no `=` it writes nothing and leaves the
table unchanged. -/
theorem C14_shell_alias_without_equals (text : List Char) (aliases : List Alias)
    (h : '=' ∉ text) :
    (text = [] → shell_alias text aliases = (print_aliases aliases, aliases)) ∧
    (text ≠ [] → shell_alias text aliases = ([], aliases)) := by
  refine ⟨?_, ?_⟩
  · intro e
    subst e
    rfl
  · intro hne
    unfold shell_alias
    rw [strtok_last ['='] text hne (is_delim_eq_of_not_mem text h)]
    rfl

/-- C14 (amended), at the empty text and at `ll` on the table that holds `ll`. -/
theorem C14_shell_alias_without_equals_witness :
    shell_alias [] (set_alias "ll".toList "ls -l".toList aliases_init).2
      = (print_aliases (set_alias "ll".toList "ls -l".toList aliases_init).2,
         (set_alias "ll".toList "ls -l".toList aliases_init).2) ∧
    shell_alias "ll".toList (set_alias "ll".toList "ls -l".toList aliases_init).2
      = ([], (set_alias "ll".toList "ls -l".toList aliases_init).2) :=
  ⟨(C14_shell_alias_without_equals [] _ (by decide)).1 rfl,
   (C14_shell_alias_without_equals "ll".toList _ (by decide)).2 (by decide)⟩

/-- C15 (counterexample to the claim as stated): the text `ll=ls --color=auto` sets
`ll` to `ls --color`, the value cut at its `=`, where
`set_alias("ll", "ls --color=auto")` keeps the whole value. -/
theorem C15_counterexample :
    (shell_alias "ll=ls --color=auto".toList aliases_init).2
      = (set_alias "ll".toList "ls --color".toList aliases_init).2 ∧
    (shell_alias "ll=ls --color=auto".toList aliases_init).2
      ≠ (set_alias "ll".toList "ls --color=auto".toList aliases_init).2 := by
  decide

/-- C15 (amended): for every non-empty name free of `=` and every non-empty value free
of `=`, `shell_alias` applied to the text `name=value` writes nothing and leaves
the table in the state `set_alias(name, value)` leaves it in; and when nothing
follows the `=` (text `name=`) the table is unchanged and nothing is written. -/
theorem C15_shell_alias_sets (name value : List Char) (aliases : List Alias)
    (hname : name ≠ []) (hn : '=' ∉ name) (hvalue : value ≠ []) (hv : '=' ∉ value) :
    shell_alias (name ++ '=' :: value) aliases = ([], (set_alias name value aliases).2) ∧
    shell_alias (name ++ ['=']) aliases = ([], aliases) := by
  refine ⟨?_, ?_⟩
  · unfold shell_alias
    rw [strtok_token ['='] name '=' value hname (is_delim_eq_of_not_mem name hn) rfl]
    simp only
    rw [strtok_last ['='] value hvalue (is_delim_eq_of_not_mem value hv)]
  · unfold shell_alias
    rw [strtok_token ['='] name '=' [] hname (is_delim_eq_of_not_mem name hn) rfl]
    rfl

/-- C15 (amended), at `ll=ls -l` and `ll=` on the empty table. -/
theorem C15_shell_alias_sets_witness :
    shell_alias ("ll".toList ++ '=' :: "ls -l".toList) aliases_init
      = ([], (set_alias "ll".toList "ls -l".toList aliases_init).2) ∧
    shell_alias ("ll".toList ++ ['=']) aliases_init = ([], aliases_init) :=
  C15_shell_alias_sets "ll".toList "ls -l".toList aliases_init (by decide) (by decide)
    (by decide) (by decide)

theorem digitChar_plain : ∀ k : Nat, k < 10 →
    Nat.digitChar k ≠ '$' ∧ Nat.digitChar k ≠ '?' := by
  decide

theorem toDigitsCore_plain :
    ∀ (fuel n : Nat) (ds : List Char), (∀ c ∈ ds, c ≠ '$' ∧ c ≠ '?') →
      ∀ c ∈ Nat.toDigitsCore 10 fuel n ds, c ≠ '$' ∧ c ≠ '?' := by
  intro fuel
  induction fuel with
  | zero => intro n ds h; simpa [Nat.toDigitsCore] using h
  | succ fuel ih =>
    intro n ds h
    have hcons : ∀ c ∈ Nat.digitChar (n % 10) :: ds, c ≠ '$' ∧ c ≠ '?' := by
      intro c hc
      rcases List.mem_cons.mp hc with rfl | hc
      · exact digitChar_plain _ (Nat.mod_lt _ (by decide))
      · exact h c hc
    unfold Nat.toDigitsCore
    simp only
    split
    · exact hcons
    · exact ih _ _ hcons

theorem toDigitsCore_ne_nil :
    ∀ (fuel n : Nat) (ds : List Char), ds ≠ [] → Nat.toDigitsCore 10 fuel n ds ≠ [] := by
  intro fuel
  induction fuel with
  | zero => intro n ds h; simpa [Nat.toDigitsCore] using h
  | succ fuel ih =>
    intro n ds _
    unfold Nat.toDigitsCore
    simp only
    split
    · simp
    · exact ih _ _ (by simp)

theorem toDigits_plain (n : Nat) : ∀ c ∈ Nat.toDigits 10 n, c ≠ '$' ∧ c ≠ '?' :=
  toDigitsCore_plain (n + 1) n [] (by simp)

theorem toDigits_ne_nil (n : Nat) : Nat.toDigits 10 n ≠ [] := by
  unfold Nat.toDigits Nat.toDigitsCore
  simp only
  split
  · simp
  · exact toDigitsCore_ne_nil _ _ _ (by simp)

theorem patternFree_nil : PatternFree [] := by
  intro pre post d h
  have := congrArg List.length h
  simp at this
  omega

theorem patternFree_part (a f b : List Char) (h : PatternFree (a ++ f ++ b)) :
    PatternFree f := by
  intro pre post d e
  exact h (a ++ pre) (post ++ b) d (by rw [e]; simp)

theorem patternFree_take (s : List Char) (k : Nat) (h : PatternFree s) :
    PatternFree (s.take k) := by
  apply patternFree_part [] (s.take k) (s.drop k)
  simpa using h

theorem patternFree_tail (c : Char) (s : List Char) (h : PatternFree (c :: s)) :
    PatternFree s := by
  apply patternFree_part [c] s []
  simpa using h

theorem patternFree_append_char (s : List Char) (c : Char) (h : PatternFree s)
    (hc : s.getLast? = some '$' → c ≠ '$' ∧ c ≠ '?') : PatternFree (s ++ [c]) := by
  intro pre post d e
  rcases List.eq_nil_or_concat post with rfl | ⟨post', x, rfl⟩
  · have e' : s ++ [c] = (pre ++ ['$']) ++ [d] := by rw [e]; simp
    have := List.append_inj' e' rfl
    obtain ⟨hs, hcd⟩ := this
    have hcd' : c = d := by simpa using hcd
    subst hcd'
    exact hc (by rw [hs]; simp)
  · have e' : s ++ [c] = (pre ++ '$' :: d :: post') ++ [x] := by rw [e]; simp
    have := (List.append_inj' e' rfl).1
    exact h pre post' d this

theorem patternFree_append_plain (ds : List Char) (hds : ∀ c ∈ ds, c ≠ '$' ∧ c ≠ '?') :
    ∀ s : List Char, PatternFree s → PatternFree (s ++ ds) := by
  induction ds with
  | nil => intro s h; simpa using h
  | cons c ds ih =>
    intro s h
    have := ih (fun x hx => hds x (by simp [hx])) (s ++ [c])
      (patternFree_append_char s c h (fun _ => hds c (by simp)))
    simpa using this

theorem getLast?_append_plain (s ds : List Char) (hne : ds ≠ [])
    (hds : ∀ c ∈ ds, c ≠ '$' ∧ c ≠ '?') : (s ++ ds).getLast? ≠ some '$' := by
  intro h
  rw [List.getLast?_append_of_ne_nil _ hne] at h
  have hmem : '$' ∈ ds := List.mem_of_getLast?_eq_some h
  exact (hds '$' hmem).1 rfl

theorem replace_variables_loop_dollar_end (pid len : Nat) (result : List Char) :
    replace_variables_loop pid len result ['$'] = snprintf (len + 1) (result ++ ['$']) := by
  simp [replace_variables_loop]

theorem replace_variables_loop_dollar_plain (pid len : Nat) (result rest : List Char)
    (d : Char) (h1 : d ≠ '$') (h2 : d ≠ '?') :
    replace_variables_loop pid len result ('$' :: d :: rest) =
      replace_variables_loop pid len (snprintf (len + 1) (result ++ ['$'])) (d :: rest) := by
  rw [replace_variables_loop]
  simp [h1, h2]

theorem replace_variables_loop_pid (pid len : Nat) (result rest : List Char) :
    replace_variables_loop pid len result ('$' :: '$' :: rest) =
      replace_variables_loop pid len
        (snprintf (len + 10) (result ++ Nat.toDigits 10 pid)) rest := by
  rw [replace_variables_loop]
  simp

theorem replace_variables_loop_status (pid len : Nat) (result rest : List Char) :
    replace_variables_loop pid len result ('$' :: '?' :: rest) =
      replace_variables_loop pid len
        (snprintf (len + 10) (result ++ Nat.toDigits 10 0)) rest := by
  rw [replace_variables_loop]
  simp

theorem snprintf_fits (size : Nat) (text : List Char) (h : text.length < size) :
    snprintf size text = text := by
  unfold snprintf
  exact List.take_of_length_le (by omega)

/-- On a text with nothing to expand, and room for it, the scan copies the text. -/
theorem replace_variables_loop_patternFree (pid len : Nat) (r : List Char) :
    ∀ result : List Char, PatternFree r → result.length + r.length ≤ len →
      replace_variables_loop pid len result r = result ++ r := by
  induction r with
  | nil => intro result _ _; simp [replace_variables_loop]
  | cons c rest ih =>
    intro result hpf hlen
    simp only [List.length_cons] at hlen
    have hfit : snprintf (len + 1) (result ++ [c]) = result ++ [c] :=
      snprintf_fits _ _ (by simp; omega)
    have hrest := ih (result ++ [c]) (patternFree_tail c rest hpf) (by simp; omega)
    by_cases hc : c = '$'
    · subst hc
      cases rest with
      | nil => rw [replace_variables_loop_dollar_end, hfit]
      | cons d rest' =>
        obtain ⟨h1, h2⟩ := hpf [] rest' d rfl
        rw [replace_variables_loop_dollar_plain pid len result rest' d h1 h2, hfit, hrest]
        simp
    · rw [replace_variables_loop_cons_plain pid len c result rest hc, hfit, hrest]
      simp

theorem replace_variables_patternFree (pid : Nat) (r : List Char) (h : PatternFree r) :
    replace_variables pid [] r = r := by
  unfold replace_variables
  rw [replace_variables_loop_patternFree pid _ r [] h (by simp)]
  rfl

theorem literal_step_patternFree (len : Nat) (result : List Char) (c : Char)
    (hpf : PatternFree result)
    (hc : result.length < len → result.getLast? = some '$' → c ≠ '$' ∧ c ≠ '?') :
    PatternFree (snprintf (len + 1) (result ++ [c])) := by
  unfold snprintf
  by_cases hl : result.length < len
  · exact patternFree_take _ _ (patternFree_append_char result c hpf (hc hl))
  · rw [show len + 1 - 1 = len from rfl, List.take_append_of_le_length (by omega)]
    exact patternFree_take _ _ hpf

theorem literal_step_last (len : Nat) (result : List Char) (c : Char)
    (hl : (snprintf (len + 1) (result ++ [c])).length < len) :
    (snprintf (len + 1) (result ++ [c])).getLast? = some c := by
  unfold snprintf at hl ⊢
  simp only [Nat.add_sub_cancel, List.length_take, List.length_append, List.length_singleton]
    at hl
  rw [show len + 1 - 1 = len from rfl, List.take_of_length_le (by simp; omega)]
  simp

theorem digits_step_patternFree (len : Nat) (result ds : List Char)
    (hpf : PatternFree result) (hds : ∀ c ∈ ds, c ≠ '$' ∧ c ≠ '?') :
    PatternFree (snprintf (len + 10) (result ++ ds)) := by
  unfold snprintf
  exact patternFree_take _ _ (patternFree_append_plain ds hds result hpf)

theorem digits_step_last (len : Nat) (result ds : List Char) (hne : ds ≠ [])
    (hds : ∀ c ∈ ds, c ≠ '$' ∧ c ≠ '?')
    (hl : (snprintf (len + 10) (result ++ ds)).length < len) :
    (snprintf (len + 10) (result ++ ds)).getLast? ≠ some '$' := by
  unfold snprintf at hl ⊢
  simp only [List.length_take, List.length_append] at hl
  rw [List.take_of_length_le (by simp; omega)]
  exact getLast?_append_plain result ds hne hds

/-- What `replace_variables` returns holds nothing to expand: while the result is
shorter than `len`, a `$` at its end is a literal one and the next character of
the command is neither `$` nor `?`. -/
theorem replace_variables_loop_result_patternFree (pid len : Nat) :
    ∀ (n : Nat) (rest result : List Char), rest.length ≤ n → PatternFree result →
      (result.length < len → result.getLast? = some '$' →
        rest.head? ≠ some '$' ∧ rest.head? ≠ some '?') →
      PatternFree (replace_variables_loop pid len result rest) := by
  intro n
  induction n with
  | zero =>
    intro rest result hn hpf _
    have : rest = [] := List.length_eq_zero.mp (by omega)
    subst this
    simpa [replace_variables_loop] using hpf
  | succ n ih =>
    intro rest result hn hpf hinv
    cases rest with
    | nil => simpa [replace_variables_loop] using hpf
    | cons c rest1 =>
      simp only [List.length_cons] at hn
      have hhead : result.length < len → result.getLast? = some '$' → c ≠ '$' ∧ c ≠ '?' := by
        intro hl hlast
        have := hinv hl hlast
        simpa using this
      by_cases hc : c = '$'
      · subst hc
        have hnot : result.length < len → result.getLast? = some '$' →
            ('$' : Char) ≠ '$' ∧ ('$' : Char) ≠ '?' := hhead
        cases rest1 with
        | nil =>
          rw [replace_variables_loop_dollar_end]
          exact literal_step_patternFree len result '$' hpf hnot
        | cons d rest2 =>
          simp only [List.length_cons] at hn
          by_cases hd1 : d = '$'
          · subst hd1
            rw [replace_variables_loop_pid]
            refine ih rest2 _ (by omega)
              (digits_step_patternFree len result _ hpf (toDigits_plain pid)) ?_
            intro hl hlast
            exact absurd hlast
              (digits_step_last len result _ (toDigits_ne_nil pid) (toDigits_plain pid) hl)
          · by_cases hd2 : d = '?'
            · subst hd2
              rw [replace_variables_loop_status]
              refine ih rest2 _ (by omega)
                (digits_step_patternFree len result _ hpf (toDigits_plain 0)) ?_
              intro hl hlast
              exact absurd hlast
                (digits_step_last len result _ (toDigits_ne_nil 0) (toDigits_plain 0) hl)
            · rw [replace_variables_loop_dollar_plain pid len result rest2 d hd1 hd2]
              refine ih (d :: rest2) _ (by simp; omega)
                (literal_step_patternFree len result '$' hpf hnot) ?_
              intro _ _
              simp [hd1, hd2]
      · rw [replace_variables_loop_cons_plain pid len c result rest1 hc]
        refine ih rest1 _ (by omega) (literal_step_patternFree len result c hpf hhead) ?_
        intro hl hlast
        rw [literal_step_last len result c hl] at hlast
        exact absurd (Option.some.inj hlast) hc

theorem replace_variables_result_patternFree (pid : Nat) (line : List Char) :
    PatternFree (replace_variables pid [] line) := by
  unfold replace_variables
  exact replace_variables_loop_result_patternFree pid _ line.length line [] (Nat.le_refl _)
    patternFree_nil (by simp)

theorem strip_comments_is_start (s : List Char) : ∃ b, s = strip_comments s ++ b := by
  induction s with
  | nil => exact ⟨[], rfl⟩
  | cons c rest ih =>
    by_cases hc : c = '#'
    · exact ⟨c :: rest, by simp [strip_comments, hc]⟩
    · obtain ⟨b, hb⟩ := ih
      refine ⟨b, ?_⟩
      simp only [strip_comments, hc, ↓reduceIte, List.cons_append]
      rw [← hb]

theorem runs_part (delim s : List Char) (ts : List (List Char)) (h : Runs delim s ts) :
    ∀ f ∈ ts, ∃ a b, s = a ++ f ++ b := by
  induction h with
  | done gap _ => intro f hf; simp at hf
  | run gap t after ts _ _ _ _ _ ih =>
    intro f hf
    rcases List.mem_cons.mp hf with rfl | hf
    · exact ⟨gap, after, rfl⟩
    · obtain ⟨a, b, hab⟩ := ih f hf
      exact ⟨gap ++ t ++ a, b, by rw [hab]; simp⟩

theorem split_commands_part (delim s : List Char) (commands : List (List Char))
    (h : split_commands delim s = some commands) :
    ∀ f ∈ commands, ∃ a b, s = a ++ f ++ b := by
  unfold split_commands at h
  simp only at h
  split at h
  · rename_i hlt
    have e := Option.some.inj h
    have hstable := strtok_loop_stored delim MAX_COMMANDS (strtok delim s) hlt
      (MAX_COMMANDS + s.length) (by omega)
    have hruns := runs_of_strtok_loop delim (MAX_COMMANDS + s.length) s (by omega)
    rw [hstable, e] at hruns
    exact runs_part delim s commands hruns
  · exact absurd h (by simp)

/-- C19: with the fresh blocks empty, for every non-empty line whose expansion is not
empty, expanding the expansion again gives the expansion; hence the second
expansion that `execute_logical_commands` applies to each fragment of the
expanded line changes nothing. -/
theorem C19_replace_variables_idempotent (pid : Nat) (line : List Char) (_hline : line ≠ [])
    (_hres : replace_variables pid [] line ≠ []) :
    replace_variables pid [] (replace_variables pid [] line) = replace_variables pid [] line ∧
    (∀ commands, logical_fragments pid [] line = some commands →
      ∀ f ∈ commands, replace_variables pid [] f = f) := by
  have hpf := replace_variables_result_patternFree pid line
  refine ⟨replace_variables_patternFree pid _ hpf, ?_⟩
  intro commands hc f hf
  unfold logical_fragments at hc
  obtain ⟨a, b, hab⟩ := split_commands_part _ _ commands hc f hf
  obtain ⟨tail, htail⟩ := strip_comments_is_start (replace_variables pid [] line)
  apply replace_variables_patternFree
  apply patternFree_part a f (b ++ tail)
  have : a ++ f ++ (b ++ tail) = replace_variables pid [] line := by
    rw [htail, hab]; simp
  rw [this]
  exact hpf

/-- C19, at the line `echo $$ & echo $?` with the process id 12345. -/
theorem C19_replace_variables_idempotent_witness :
    replace_variables 12345 [] (replace_variables 12345 [] "echo $$ & echo $?".toList)
      = replace_variables 12345 [] "echo $$ & echo $?".toList ∧
    (∀ commands, logical_fragments 12345 [] "echo $$ & echo $?".toList = some commands →
      ∀ f ∈ commands, replace_variables 12345 [] f = f) :=
  C19_replace_variables_idempotent 12345 "echo $$ & echo $?".toList (by decide) (by decide)

/-- C18 (the code at the failing input): for the line `$$ab#cccc` and the process id
12345, the code splits `strip_comments(replace_variables(line))`, which is
`12345ab`, while `replace_variables(strip_comments(line))` is `12345`: the
literal characters are cut at `len`, and `len` is larger for the line with its
comment than for the line without it. -/
theorem C18_strip_and_replace_differ :
    strip_comments (replace_variables 12345 [] "$$ab#cccc".toList) = "12345ab".toList ∧
    replace_variables 12345 [] (strip_comments "$$ab#cccc".toList) = "12345".toList ∧
    logical_fragments 12345 [] "$$ab#cccc".toList = some ["12345ab".toList] := by
  decide

theorem dispatch_other (command : List Char) (args : Args)
    (h : command ∉ ["exit".toList, "env".toList, "setenv".toList, "unsetenv".toList,
      "cd".toList]) :
    dispatch command args = some (Action.execute_command command) := by
  simp only [List.mem_cons, List.mem_singleton, List.not_mem_nil, or_false, not_or] at h
  unfold dispatch
  rw [if_neg h.1, if_neg h.2.1, if_neg h.2.2.1, if_neg h.2.2.2.1, if_neg h.2.2.2.2]

theorem dispatch_builtins (args : Args) :
    dispatch "exit".toList args = some Action.shell_exit ∧
    dispatch "env".toList args = some Action.shell_env ∧
    dispatch "unsetenv".toList args = some (Action.unset_env_variable args.arg1) ∧
    dispatch "cd".toList args = some (Action.change_directory args.arg1) ∧
    dispatch "setenv".toList args = none := by
  refine ⟨rfl, ?_, ?_, ?_, ?_⟩
  · simp [dispatch]
  · simp [dispatch, args_read]
  · simp [dispatch, args_read]
  · simp [dispatch, args_read]

/-- No pass of the loop of `main` in shell.c comes to `parse_input` or to the chain of
tests: the process ends in `_getline` when `read` fails, and `_getline` stores
through the NULL pointer otherwise. -/
theorem main_step_reads_nothing (bytes_read : Int) (command : List Char) (args : Args) :
    main_step bytes_read command args =
      if bytes_read = -1 then some Pass.exit_failure else none := by
  unfold main_step _getline
  by_cases h : bytes_read = -1
  · simp [h]
  · simp [h]

theorem main_c_step_one_token (line token command : List Char) (args : Args)
    (h : tokenize_input_block (line.takeWhile (fun c => c ≠ '\n')) = some [token]) :
    main_c_step line command args =
      some (Action.execute_command token, token, ⟨some token, none⟩) := by
  simp only [main_c_step, parse_input, h]
  rfl

/-- C16 (the code at the failing input): with `alias` on the standard input, whatever
`read` answers and whatever `command` and `args` hold, the pass of the loop of
`main` in shell.c makes no call: it ends or is undefined inside `_getline`,
before any line is parsed.  In the loop of `main` in main.c, which reads into
its buffer, the lines `alias` and `exit` both lead to `execute_command`. -/
theorem C16_builtins_are_not_dispatched (bytes_read : Int) (command : List Char)
    (args : Args) :
    (main_step bytes_read command args = none ∨
      main_step bytes_read command args = some Pass.exit_failure) ∧
    main_c_step "alias\n".toList command args =
      some (Action.execute_command "alias".toList, "alias".toList,
        ⟨some "alias".toList, none⟩) ∧
    main_c_step "exit\n".toList command args =
      some (Action.execute_command "exit".toList, "exit".toList,
        ⟨some "exit".toList, none⟩) := by
  refine ⟨?_, ?_, ?_⟩
  · rw [main_step_reads_nothing]
    by_cases h : bytes_read = -1
    · right; simp [h]
    · left; simp [h]
  · exact main_c_step_one_token _ _ command args (by decide)
  · exact main_c_step_one_token _ _ command args (by decide)

/-- C17 (the code at the failing input): with `setenv NAME VALUE` on the standard input,
whatever `read` answers and whatever `command` and `args` hold, the pass of the
loop of `main` in shell.c makes no call, so `set_env_variable` is not called:
it ends or is undefined inside `_getline`.  In the loop of `main` in main.c the
line is undefined in `tokenize_input` (three tokens), and on the line
`setenv NAME` `parse_input` stores `setenv` and `NAME` in the two slots of
`args` and the call made is `execute_command("setenv")`. -/
theorem C17_setenv_is_never_called (bytes_read : Int) (command : List Char) (args : Args) :
    (main_step bytes_read command args = none ∨
      main_step bytes_read command args = some Pass.exit_failure) ∧
    main_c_step "setenv NAME VALUE\n".toList command args = none ∧
    parse_input "setenv NAME".toList command args =
      some ("setenv".toList, ⟨some "setenv".toList, some "NAME".toList⟩) ∧
    main_c_step "setenv NAME\n".toList command args =
      some (Action.execute_command "setenv".toList, "setenv".toList,
        ⟨some "setenv".toList, some "NAME".toList⟩) := by
  have h3 : tokenize_input_block ("setenv NAME VALUE\n".toList.takeWhile (fun c => c ≠ '\n'))
      = none := by decide
  have h2 : tokenize_input_block "setenv NAME".toList
      = some ["setenv".toList, "NAME".toList] := by decide
  have hp : parse_input "setenv NAME".toList command args =
      some ("setenv".toList, ⟨some "setenv".toList, some "NAME".toList⟩) := by
    simp only [parse_input, h2]
    rfl
  refine ⟨?_, ?_, hp, ?_⟩
  · rw [main_step_reads_nothing]
    by_cases h : bytes_read = -1
    · right; simp [h]
    · left; simp [h]
  · simp only [main_c_step, parse_input, h3]
  · have ht : "setenv NAME\n".toList.takeWhile (fun c => c ≠ '\n') = "setenv NAME".toList := by
      decide
    unfold main_c_step
    rw [ht, hp]

theorem tokenize_input_blank (line : List Char) (h : ∀ c ∈ line, c = ' ') :
    tokenize_input line = [] := by
  have hruns : Runs [' '] line [] :=
    Runs.done line (fun c hc => by rw [h c hc]; rfl)
  exact strtok_loop_of_runs [' '] line [] hruns line.length (Nat.le_refl _)

/-- For a line with no token, `parse_input` leaves `command` and `args` as they were. -/
theorem parse_input_blank (line command : List Char) (args : Args)
    (h : ∀ c ∈ line, c = ' ') :
    parse_input line command args = some (command, args) := by
  have ht := tokenize_input_blank line h
  unfold parse_input tokenize_input_block
  rw [ht]
  rfl

/-- For a line with one or two tokens, `parse_input` sets `command` to the first token,
`args[0]` to `command` and `args[1]` to the second token or NULL. -/
theorem parse_input_tokens (line command t0 : List Char) (ts : List (List Char)) (args : Args)
    (h : tokenize_input line = t0 :: ts) (hfit : ts.length ≤ 1) :
    parse_input line command args = some (t0, ⟨some t0, ts.head?⟩) := by
  unfold parse_input tokenize_input_block
  rw [h, if_pos (by simp [TOKENS_SLOTS]; omega)]

/-- After a line with no token the loop of `main` in main.c calls `execute_command` on
the command the earlier lines left in `command`. -/
theorem main_c_step_blank (line command : List Char) (args : Args)
    (hnl : '\n' ∉ line) (h : ∀ c ∈ line, c = ' ') :
    main_c_step line command args = some (Action.execute_command command, command, args) := by
  have ht : line.takeWhile (fun c => c ≠ '\n') = line := by
    rw [List.takeWhile_eq_self_iff]
    intro c hc
    have : c ≠ '\n' := fun e => hnl (e ▸ hc)
    simpa using this
  unfold main_c_step
  rw [ht, parse_input_blank line command args h]

/-- C20 (the code at the failing input): for the line `ls -l /tmp`, whatever `command`
and `args` hold, `parse_input` is undefined: `tokenize_input` stores three
tokens and the closing NULL, one slot more than its block has, before
`parse_input` reads `tokens[0]` and `tokens[1]`.  For the line `ls -l` it sets
`command` to `ls`, `args[0]` to `ls` and `args[1]` to `-l`, and for the line
of two spaces it leaves both as they were. -/
theorem C20_three_tokens_undefined (command : List Char) (args : Args) :
    parse_input "ls -l /tmp".toList command args = none ∧
    parse_input "ls -l".toList command args =
      some ("ls".toList, ⟨some "ls".toList, some "-l".toList⟩) ∧
    parse_input "  ".toList command args = some (command, args) := by
  have h3 : tokenize_input_block "ls -l /tmp".toList = none := by decide
  refine ⟨?_, ?_, ?_⟩
  · simp only [parse_input, h3]
  · exact parse_input_tokens "ls -l".toList command "ls".toList ["-l".toList] args
      (by decide) (by decide)
  · exact parse_input_blank "  ".toList command args (by decide)

end Shell
